import Mathlib

/-!
# fibdrv: a shallow embedding of `fibdrv.c`

The Linux character device `fibdrv` computes Fibonacci numbers in a two-limb
base-`10^17` representation and serves their decimal numerals through
`read`, addressed by the file position set with `lseek`.

Conventions of the embedding.

* `unsigned long long` values are `Nat`, every arithmetic result reduced
  `% 2^64`.
* `long long` / `loff_t` / `ssize_t` values are `Int`; a signed result is
  brought back into `[-2^63, 2^63)` by `wrapS64` (the kernel is built with
  `-fno-strict-overflow`, so signed arithmetic wraps).
* Loops are structural recursions on a fuel argument.  A loop whose fuel runs
  out yields `none`; each top-level function passes fuel that is provably
  enough whenever the C loop terminates.
* C strings are lists of `Char`, the terminator being `Char.ofNat 0`.
-/

namespace Fibdrv

/-! ## Constants and machine arithmetic -/

/-- The constant `#define MAX_LENGTH 100`. -/
def MAX_LENGTH : Int := 100

/-- The constant `#define DEC_LOWDIGIT_BOUND 100000000000000000`, that is `10^17`. -/
def DEC_LOWDIGIT_BOUND : Nat := 100000000000000000

/-- Number of values of a 64-bit word. -/
def U64 : Nat := 18446744073709551616

/-- Two's-complement wrap of a mathematical integer into `long long`. -/
def wrapS64 (z : Int) : Int := (z + 9223372036854775808) % 18446744073709551616 - 9223372036854775808

/-- Largest `long long`. -/
def LLONG_MAX : Int := 9223372036854775807

/-- Smallest `long long`. -/
def LLONG_MIN : Int := -9223372036854775808

/-- Membership in the range of `long long`. -/
def isS64 (z : Int) : Prop := LLONG_MIN ≤ z ∧ z ≤ LLONG_MAX

instance (z : Int) : Decidable (isS64 z) := by unfold isS64; infer_instance

/-! ## `ui128_t` and its addition -/

/-- The union `ui128_t`: both anonymous structs share one layout, so
`bin_lower`/`dec_lower` are one field and `bin_upper`/`dec_upper` the other. -/
structure ui128_t where
  dec_lower : Nat
  dec_upper : Nat
  deriving DecidableEq, Repr

/-- The number a two-limb value stands for: `high * 10^17 + low`. -/
def ui128_t.value (x : ui128_t) : Nat := x.dec_upper * DEC_LOWDIGIT_BOUND + x.dec_lower

/-- The function `add_ui128_dec(&output, x, y)`, returning `*output`. -/
def add_ui128_dec (x y : ui128_t) : ui128_t :=
  let upper := (x.dec_upper + y.dec_upper) % U64
  let upper := if (y.dec_lower + x.dec_lower) % U64 > DEC_LOWDIGIT_BOUND then (upper + 1) % U64 else upper
  { dec_upper := upper
    dec_lower := ((x.dec_lower + y.dec_lower) % U64) % DEC_LOWDIGIT_BOUND }

/-! ## `fib_sequence` -/

/-- The `for (i = 2; i <= k; i++)` loop of `fib_sequence`, entered at the
test `i <= k` with running values `fn`, `fn1`.  `none` when the fuel runs out. -/
def fib_loop : Nat → Int → Int → ui128_t → ui128_t → Option ui128_t
  | 0, _, _, _, _ => none
  | fuel + 1, k, i, fn, fn1 =>
    if i ≤ k then
      let tmp := add_ui128_dec fn fn1
      fib_loop fuel k (wrapS64 (i + 1)) fn1 tmp
    else some fn1

/-- Number of loop bodies `fib_loop` runs before it leaves (`none` when the
fuel runs out first). -/
def fib_loop_iters : Nat → Int → Int → Option Nat
  | 0, _, _ => none
  | fuel + 1, k, i =>
    if i ≤ k then (fib_loop_iters fuel k (wrapS64 (i + 1))).map (· + 1)
    else some 0

/-- The function `fib_sequence(k)`.  The counter `i` has `2^64` states and the loop test
depends on `i` only, so a run that has not left the loop after `2^64` tests
never does: `none` stands for a run that does not return. -/
def fib_sequence (k : Int) : Option ui128_t :=
  let fn : ui128_t := { dec_upper := 0, dec_lower := 0 }
  let fn1 : ui128_t := { dec_upper := 0, dec_lower := 1 }
  if k = 0 then some fn
  else if k = 1 then some fn1
  else fib_loop U64 k 2 fn fn1

/-- The Fibonacci sequence of the specification:
`F(0)=0, F(1)=1, F(k)=F(k-1)+F(k-2)`. -/
def F : Nat → Nat
  | 0 => 0
  | 1 => 1
  | n + 2 => F (n + 1) + F n

/-- The canonical two-limb representation of a natural number. -/
def rep (n : Nat) : ui128_t := { dec_lower := n % DEC_LOWDIGIT_BOUND, dec_upper := n / DEC_LOWDIGIT_BOUND }

/-! ## `cntdig` -/

/-- The `do { cnt++; num /= 10; } while (num);` loop of `cntdig`, entered at
the top of the body. -/
def cntdig_loop : Nat → Nat → Nat → Nat
  | 0, cnt, _ => cnt
  | fuel + 1, cnt, num =>
    let cnt := cnt + 1
    let num := num / 10
    if num ≠ 0 then cntdig_loop fuel cnt num else cnt

/-- The function `cntdig(num)`.  The count is a small non-negative `ssize_t`, kept as a
`Nat`.  Each pass divides `num` by ten, so `num + 1` passes always suffice. -/
def cntdig (num : Nat) : Nat := cntdig_loop (num + 1) 0 num

/-! ## The C library pieces used by `fib_read` -/

/-- The string terminator. -/
def NUL : Char := Char.ofNat 0

/-- Output of the conversion `%llu`: the decimal digits, no padding. -/
def fmt_llu (n : Nat) : List Char := Nat.toDigits 10 n

/-- Output of the conversion `%017llu`: the decimal digits, padded with
zeros on the left to a width of at least 17. -/
def fmt_017llu (n : Nat) : List Char :=
  List.replicate (17 - (Nat.toDigits 10 n).length) '0' ++ Nat.toDigits 10 n

/-- The function `snprintf(ns + off, size, ...)` where the conversion yields `s`: at most
`size - 1` characters of `s` and a terminator are stored from index `off`.
`none` when a store would fall outside the array `ns`. -/
def snprintf (ns : List Char) (off size : Nat) (s : List Char) : Option (List Char) :=
  if size = 0 then some ns
  else
    let out := s.take (size - 1) ++ [NUL]
    if off + out.length ≤ ns.length then
      some (ns.take off ++ out ++ ns.drop (off + out.length))
    else none

/-- The function `strlen(ns)`: the index of the first terminator; `none` when the array
holds none. -/
def strlen (ns : List Char) : Option Nat :=
  if NUL ∈ ns then some (ns.takeWhile (· ≠ NUL)).length else none

/-- The characters of the C string stored in `ns`. -/
def c_string (ns : List Char) : List Char := ns.takeWhile (· ≠ NUL)

/-- Reading a string of decimal digits as a number. -/
def parse_decimal (s : List Char) : Nat := s.foldl (fun acc c => acc * 10 + (c.toNat - 48)) 0

/-! ## `fib_read` -/

/-- Lines 102 to 111 of `fib_read`: the contents of `char ns[40]` after the
`snprintf` calls, for the value `res`. -/
def fib_format (res : ui128_t) : Option (List Char) := do
  let lenu := cntdig res.dec_upper
  let lenl := cntdig res.dec_lower
  let ns := List.replicate 40 NUL
  let ns ← snprintf ns 0 (lenu + 1) (fmt_llu res.dec_upper)
  if res.dec_upper ≠ 0 then
    let ns ← snprintf ns 0 (lenu + 1) (fmt_llu res.dec_upper)
    snprintf ns lenu 18 (fmt_017llu res.dec_lower)
  else
    snprintf ns 0 (lenl + 1) (fmt_llu res.dec_lower)

/-- What a call of `fib_read` leaves behind. -/
structure ReadResult where
  /-- The value returned. -/
  ret : Int
  /-- The value of `*offset` after the call. -/
  pos : Int
  /-- The bytes handed to `copy_to_user`: `ns[0 .. strlen(ns)]`. -/
  sent : List Char
  /-- The bytes that reached the user buffer. -/
  user : List Char
  deriving DecidableEq, Repr

/-- The function `fib_read(file, buf, size, offset)` with `*offset = pos`.  `uncopied` is
the result of `copy_to_user`, the number of bytes it could not copy. -/
def fib_read (pos : Int) (uncopied : Nat) : Option ReadResult := do
  let res ← fib_sequence pos
  let ns ← fib_format res
  let len ← strlen ns
  let sent := ns.take (len + 1)
  let user := sent.take (len + 1 - uncopied)
  if uncopied ≠ 0 then
    some { ret := -1, pos := pos, sent := sent, user := user }
  else
    some { ret := (len : Int), pos := pos, sent := sent, user := user }

/-- The function `fib_write`. -/
def fib_write (pos : Int) : Int × Int := (1, pos)

/-! ## `fib_device_lseek` -/

/-- The function `fib_device_lseek(file, offset, orig)` with `file->f_pos = f_pos`: the
value returned and the new `file->f_pos`. -/
def fib_device_lseek (f_pos offset : Int) (orig : Int) : Int × Int :=
  let new_pos : Int := 0
  let new_pos :=
    if orig = 0 then offset
    else if orig = 1 then wrapS64 (f_pos + offset)
    else if orig = 2 then wrapS64 (MAX_LENGTH - offset)
    else new_pos
  let new_pos := if new_pos > MAX_LENGTH then MAX_LENGTH else new_pos
  let new_pos := if new_pos < 0 then 0 else new_pos
  (new_pos, new_pos)

/-- The clamp of the specification. -/
def clamp (x lo hi : Int) : Int := if x < lo then lo else if x > hi then hi else x

/-! ## `fib_open`, `fib_release` and the mutex -/

/-- The errno value `EBUSY`. -/
def EBUSY : Int := 16

/-- State of `fib_mutex`, with the number of sessions that were opened and
not yet closed as a ghost counter. -/
structure Gate where
  /-- Whether `fib_mutex` is held. -/
  locked : Bool
  /-- Ghost: sessions opened successfully and not yet released. -/
  sessions : Nat
  deriving DecidableEq, Repr

/-- The function `mutex_trylock`: takes the mutex and returns 1 when it is free, returns 0
without waiting when it is held. -/
def mutex_trylock (locked : Bool) : Int × Bool := if locked then (0, true) else (1, true)

/-- The function `mutex_unlock`. -/
def mutex_unlock (_locked : Bool) : Bool := false

/-- The function `fib_open`: the value returned and the state after. -/
def fib_open (g : Gate) : Int × Gate :=
  let r := mutex_trylock g.locked
  if r.1 = 0 then (-EBUSY, { g with locked := r.2 })
  else (0, { locked := r.2, sessions := g.sessions + 1 })

/-- The function `fib_release`: the value returned and the state after. -/
def fib_release (g : Gate) : Int × Gate :=
  (0, { locked := mutex_unlock g.locked, sessions := g.sessions - 1 })

/-! ## Sessions as sequences of calls -/

/-- A call on an open file. `read` carries the outcome of `copy_to_user`. -/
inductive Op where
  | seek (offset : Int) (orig : Int)
  | read (uncopied : Nat)
  | write
  deriving DecidableEq, Repr

/-- The cursor `file->f_pos` after one call (`none` when the call does not
return).  The file layer passes `&file->f_pos` as `offset` to `read` and
`write` and stores what they leave there. -/
def Op.step (f_pos : Int) : Op → Option Int
  | .seek offset orig => some (fib_device_lseek f_pos offset orig).2
  | .read uncopied => (fib_read f_pos uncopied).map (fun r => r.pos)
  | .write => some (fib_write f_pos).2

/-- The cursor after a sequence of calls. -/
def Op.run (f_pos : Int) : List Op → Option Int
  | [] => some f_pos
  | op :: ops => (Op.step f_pos op).bind (fun p => Op.run p ops)

/-- A call that opens or closes a session. -/
inductive Call where
  | open
  | close
  deriving DecidableEq, Repr

/-- The gate after one call.  The file layer calls `release` only for a file
whose `open` succeeded, so `close` with no open session is not a call. -/
def Call.step (g : Gate) : Call → Gate
  | .open => (fib_open g).2
  | .close => if g.sessions = 0 then g else (fib_release g).2

/-- The gate after a sequence of calls. -/
def Call.run (g : Gate) : List Call → Gate
  | [] => g
  | c :: cs => Call.run (Call.step g c) cs

/-- The gate after `mutex_init`: free, no session. -/
def Gate.init : Gate := { locked := false, sessions := 0 }

/-! ## The driver state and instrumented runs -/

/-- State of the driver as one open file sees it: the cursor `file->f_pos` and
the gate `fib_mutex`. -/
structure Dev where
  /-- The cursor `file->f_pos`. -/
  f_pos : Int
  /-- The state of `fib_mutex`. -/
  gate : Gate
  deriving DecidableEq, Repr

/-- A call `fib_write(file, buf, size, offset)` on the driver state, with
`offset = &file->f_pos`: the body reads neither `buf` nor `size`, stores
nothing through `offset` and does not name `fib_mutex`. -/
def fib_write_call (_buf : List Char) (_size : Nat) (d : Dev) : Int × Dev :=
  ((fib_write d.f_pos).1, { d with f_pos := (fib_write d.f_pos).2 })

/-- One pass of the loop body of `fib_sequence` on the running pair
`(fn, fn1)`: one `add_ui128_dec` and the shift of the two values. -/
def fib_body (p : ui128_t × ui128_t) : ui128_t × ui128_t := (p.2, add_ui128_dec p.1 p.2)

/-- Number of loop bodies, hence of additions, a call `fib_sequence(k)` runs
(`none` when the call does not return). -/
def fib_sequence_iters (k : Int) : Option Nat :=
  if k = 0 then some 0
  else if k = 1 then some 0
  else fib_loop_iters U64 k 2

/-- Counting, with fuel, the divisions by 10 that bring `n` to 0. -/
def divsToZero_go : Nat → Nat → Nat
  | 0, _ => 0
  | fuel + 1, n => if n = 0 then 0 else divsToZero_go fuel (n / 10) + 1

/-- The number of divisions by 10 needed to bring `n` to 0, as the
specification words the digit count. -/
def divsToZero (n : Nat) : Nat := divsToZero_go n n

/-! ## Auxiliary definitions for the proofs -/

/-- Running pair of the recurrence after `s` further steps from `(a, b)`. -/
def fibIter : Nat → Nat × Nat → Nat × Nat
  | 0, p => p
  | s + 1, p => fibIter s (p.2, p.1 + p.2)

/-- Checks, for `s` consecutive steps of the recurrence from `(a, b)`, that
the low limbs never add up to exactly `10^17` and the high limb of the sum
fits 64 bits. -/
def stepsOk : Nat → Nat → Nat → Bool
  | 0, _, _ => true
  | s + 1, a, b =>
    (a % DEC_LOWDIGIT_BOUND + b % DEC_LOWDIGIT_BOUND != DEC_LOWDIGIT_BOUND)
      && decide ((a + b) / DEC_LOWDIGIT_BOUND < U64)
      && stepsOk s b (a + b)

/-! ## Machine arithmetic -/

theorem wrapS64_id (z : Int) (h : isS64 z) : wrapS64 z = z := by
  unfold isS64 LLONG_MIN LLONG_MAX at h
  unfold wrapS64
  omega

theorem wrapS64_range (z : Int) : isS64 (wrapS64 z) := by
  unfold isS64 LLONG_MIN LLONG_MAX wrapS64
  omega

/-! ## Addition -/

theorem add_rep (a b : Nat)
    (hne : a % DEC_LOWDIGIT_BOUND + b % DEC_LOWDIGIT_BOUND ≠ DEC_LOWDIGIT_BOUND)
    (hhi : (a + b) / DEC_LOWDIGIT_BOUND < U64) :
    add_ui128_dec (rep a) (rep b) = rep (a + b) := by
  unfold DEC_LOWDIGIT_BOUND U64 at *
  simp only [add_ui128_dec, rep, DEC_LOWDIGIT_BOUND, U64, ui128_t.mk.injEq]
  constructor
  · omega
  · split <;> omega

theorem add_low_lt (x y : ui128_t) : (add_ui128_dec x y).dec_lower < DEC_LOWDIGIT_BOUND := by
  simp only [add_ui128_dec, DEC_LOWDIGIT_BOUND]
  omega

theorem add_high_lt (x y : ui128_t) : (add_ui128_dec x y).dec_upper < U64 := by
  simp only [add_ui128_dec, U64]
  split <;> omega

/-! ## The recurrence -/

theorem fibIter_F (s j : Nat) : fibIter s (F j, F (j + 1)) = (F (j + s), F (j + s + 1)) := by
  induction s generalizing j with
  | zero => rfl
  | succ s ih =>
    have h : F j + F (j + 1) = F (j + 1 + 1) := by rw [F]; omega
    simp only [fibIter, h]
    rw [ih (j + 1)]
    have e : j + 1 + s = j + (s + 1) := by omega
    rw [e]

theorem stepsOk_mono (s t : Nat) (a b : Nat) (hst : s ≤ t) (h : stepsOk t a b = true) :
    stepsOk s a b = true := by
  induction s generalizing t a b with
  | zero => rfl
  | succ s ih =>
    cases t with
    | zero => omega
    | succ t =>
      simp only [stepsOk, Bool.and_eq_true] at h ⊢
      exact ⟨h.1, ih t _ _ (by omega) h.2⟩

theorem fib_loop_rep (s : Nat) : ∀ (fuel : Nat) (i : Int) (a b : Nat),
    stepsOk s a b = true → s < fuel → 2 ≤ i → i + s ≤ LLONG_MAX →
    fib_loop fuel (i + s - 1) i (rep a) (rep b) = some (rep (fibIter s (a, b)).2) := by
  induction s with
  | zero =>
    intro fuel i a b _ hf _ _
    obtain ⟨f, rfl⟩ : ∃ f, fuel = f + 1 := ⟨fuel - 1, by omega⟩
    have : ¬ (i ≤ i + ((0 : Nat) : Int) - 1) := by omega
    simp [fib_loop, this, fibIter]
  | succ s ih =>
    intro fuel i a b hok hf hi hmax
    obtain ⟨f, rfl⟩ : ∃ f, fuel = f + 1 := ⟨fuel - 1, by omega⟩
    simp only [stepsOk, Bool.and_eq_true, bne_iff_ne, ne_eq, decide_eq_true_eq] at hok
    obtain ⟨⟨hne, hhi⟩, hrest⟩ := hok
    have hle : i ≤ i + ((s + 1 : Nat) : Int) - 1 := by omega
    have hw : wrapS64 (i + 1) = i + 1 := by
      apply wrapS64_id
      unfold isS64 LLONG_MIN
      unfold LLONG_MAX at hmax ⊢
      omega
    have hk : i + ((s + 1 : Nat) : Int) - 1 = (i + 1) + (s : Int) - 1 := by push_cast; omega
    simp only [fib_loop, hle, if_true, hw, add_rep a b hne hhi, fibIter]
    rw [hk]
    exact ih f (i + 1) b (a + b) hrest (by omega) (by omega) (by push_cast at hmax; omega)

/-- Range of the limbs of every value `fib_sequence` handles. -/
theorem fib_loop_limbs (fuel : Nat) : ∀ (k i : Int) (fn fn1 r : ui128_t),
    (fn1.dec_lower < DEC_LOWDIGIT_BOUND ∧ fn1.dec_upper < U64) →
    fib_loop fuel k i fn fn1 = some r →
    r.dec_lower < DEC_LOWDIGIT_BOUND ∧ r.dec_upper < U64 := by
  induction fuel with
  | zero => intro k i fn fn1 r _ h; simp [fib_loop] at h
  | succ f ih =>
    intro k i fn fn1 r h1 h
    simp only [fib_loop] at h
    split at h
    · exact ih _ _ _ _ _ ⟨add_low_lt fn fn1, add_high_lt fn fn1⟩ h
    · cases h; exact h1

theorem fib_sequence_limbs (k : Int) (r : ui128_t) (h : fib_sequence k = some r) :
    r.dec_lower < DEC_LOWDIGIT_BOUND ∧ r.dec_upper < U64 := by
  simp only [fib_sequence] at h
  split at h
  · cases h; decide
  · split at h
    · cases h; decide
    · exact fib_loop_limbs _ _ _ _ _ _ (by decide) h

theorem stepsOk_174 : stepsOk 174 0 1 = true := by decide

theorem fib_sequence_rep (n : Nat) (h : n ≤ 175) : fib_sequence (n : Int) = some (rep (F n)) := by
  match n, h with
  | 0, _ => rfl
  | 1, _ => rfl
  | m + 2, h =>
    have hne0 : ((m + 2 : Nat) : Int) ≠ 0 := by omega
    have hne1 : ((m + 2 : Nat) : Int) ≠ 1 := by omega
    have hok : stepsOk (m + 1) 0 1 = true := stepsOk_mono (m + 1) 174 0 1 (by omega) stepsOk_174
    have key := fib_loop_rep (m + 1) U64 2 0 1 hok (by unfold U64; omega) (by omega)
      (by unfold LLONG_MAX; omega)
    have hk : (2 : Int) + ((m + 1 : Nat) : Int) - 1 = ((m + 2 : Nat) : Int) := by push_cast; omega
    rw [hk] at key
    have hF := fibIter_F (m + 1) 0
    have e : 0 + (m + 1) + 1 = m + 2 := by omega
    rw [e] at hF
    have hF0 : (F 0, F (0 + 1)) = (0, 1) := rfl
    rw [hF0] at hF
    simp only [fib_sequence, hne0, hne1, if_false]
    have r0 : ({ dec_lower := 0, dec_upper := 0 } : ui128_t) = rep 0 := rfl
    have r1 : ({ dec_lower := 1, dec_upper := 0 } : ui128_t) = rep 1 := rfl
    rw [r0, r1, key, hF]

/-- Value and limb ranges of `fib_sequence(n)` for `n <= 100`. -/
theorem fib_sequence_value (n : Nat) (hn : n ≤ 100) :
    fib_sequence (n : Int) = some (rep (F n))
      ∧ (rep (F n)).dec_upper * 10 ^ 17 + (rep (F n)).dec_lower = F n
      ∧ (rep (F n)).dec_lower < 10 ^ 17
      ∧ (rep (F n)).dec_lower < U64 ∧ (rep (F n)).dec_upper < U64 := by
  have h10 : (10 : Nat) ^ 17 = DEC_LOWDIGIT_BOUND := by unfold DEC_LOWDIGIT_BOUND; norm_num
  have hseq := fib_sequence_rep n (by omega)
  have hlim := fib_sequence_limbs _ _ hseq
  have hdm := Nat.div_add_mod (F n) DEC_LOWDIGIT_BOUND
  refine ⟨hseq, ?_, ?_, ?_, hlim.2⟩
  · rw [h10]; simp only [rep]; rw [Nat.mul_comm]; exact hdm
  · rw [h10]; exact hlim.1
  · have := hlim.1; unfold DEC_LOWDIGIT_BOUND at this; unfold U64; omega

/-! ## Decimal digits -/

theorem toDigitsCore_digits (fuel : Nat) : ∀ (n : Nat) (ds : List Char), n < fuel → 0 < n →
    Nat.toDigitsCore 10 fuel n ds = ((Nat.digits 10 n).reverse.map Nat.digitChar) ++ ds := by
  induction fuel with
  | zero => intro n ds h; omega
  | succ f ih =>
    intro n ds hf hn
    rw [Nat.digits_def' (by norm_num) hn]
    simp only [Nat.toDigitsCore]
    split
    · next h0 =>
      simp [h0]
    · next h0 =>
      rw [ih (n / 10) _ (by omega) (by omega)]
      simp

theorem toDigits_pos (n : Nat) (hn : 0 < n) :
    Nat.toDigits 10 n = (Nat.digits 10 n).reverse.map Nat.digitChar := by
  unfold Nat.toDigits
  rw [toDigitsCore_digits (n + 1) n [] (by omega) hn]
  simp

theorem toDigits_zero : Nat.toDigits 10 0 = ['0'] := by decide

theorem cntdig_loop_length (fuel : Nat) : ∀ (n cnt : Nat) (ds : List Char),
    (Nat.toDigitsCore 10 fuel n ds).length + cnt = cntdig_loop fuel cnt n + ds.length := by
  induction fuel with
  | zero => intro n cnt ds; simp [Nat.toDigitsCore, cntdig_loop]; omega
  | succ f ih =>
    intro n cnt ds
    simp only [Nat.toDigitsCore, cntdig_loop]
    by_cases h0 : n / 10 = 0
    · simp [h0]; omega
    · have := ih (n / 10) (cnt + 1) (Nat.digitChar (n % 10) :: ds)
      simp only [h0, if_false, ne_eq, not_false_eq_true, if_true, List.length_cons] at this ⊢
      omega

theorem cntdig_eq_length (n : Nat) : cntdig n = (Nat.toDigits 10 n).length := by
  have := cntdig_loop_length (n + 1) n 0 []
  simp only [List.length_nil, Nat.add_zero] at this
  unfold cntdig Nat.toDigits
  omega

theorem digits_length_le (n e : Nat) (h : n < 10 ^ e) : (Nat.digits 10 n).length ≤ e := by
  by_cases hn : n = 0
  · subst hn; simp
  · have h1 := Nat.base_pow_length_digits_le 10 n (by norm_num) hn
    have h2 : 10 ^ (Nat.digits 10 n).length < 10 ^ (e + 1) := by
      rw [pow_succ]; omega
    have := (Nat.pow_lt_pow_iff_right (by norm_num : 1 < 10)).1 h2
    omega

theorem toDigits_length_le (n e : Nat) (he : 0 < e) (h : n < 10 ^ e) :
    (Nat.toDigits 10 n).length ≤ e := by
  by_cases hn : n = 0
  · subst hn; rw [toDigits_zero]; simpa using he
  · rw [toDigits_pos n (by omega)]
    simpa using digits_length_le n e h

theorem digitChar_toNat (d : Nat) (h : d < 10) : (Nat.digitChar d).toNat = 48 + d := by
  interval_cases d <;> rfl

theorem digitChar_ne_NUL (d : Nat) (h : d < 10) : Nat.digitChar d ≠ NUL := by
  interval_cases d <;> decide

theorem toDigits_ne_NUL (n : Nat) : ∀ c ∈ Nat.toDigits 10 n, c ≠ NUL := by
  by_cases hn : n = 0
  · subst hn; rw [toDigits_zero]; intro c hc; simp at hc; subst hc; decide
  · rw [toDigits_pos n (by omega)]
    intro c hc
    simp only [List.mem_map, List.mem_reverse] at hc
    obtain ⟨d, hd, rfl⟩ := hc
    exact digitChar_ne_NUL d (Nat.digits_lt_base (by norm_num) hd)

/-! ## The buffer `ns` -/

theorem snprintf_fit (ns : List Char) (off : Nat) (s : List Char)
    (h : off + s.length + 1 ≤ ns.length) :
    snprintf ns off (s.length + 1) s
      = some (ns.take off ++ s ++ NUL :: ns.drop (off + s.length + 1)) := by
  unfold snprintf
  simp only [Nat.add_one_ne_zero, if_false, Nat.add_sub_cancel, List.take_length,
    List.length_append, List.length_singleton]
  rw [if_pos (by omega)]
  simp [Nat.add_assoc]

theorem c_string_append (s r : List Char) (h : ∀ c ∈ s, c ≠ NUL) :
    c_string (s ++ NUL :: r) = s := by
  unfold c_string
  rw [List.takeWhile_append_of_pos (by simpa using h)]
  simp

theorem strlen_append (s r : List Char) (h : ∀ c ∈ s, c ≠ NUL) :
    strlen (s ++ NUL :: r) = some s.length := by
  have := c_string_append s r h
  unfold c_string at this
  unfold strlen
  rw [this]
  simp

theorem fmt_017llu_digits (l : Nat) (hl : l < 10 ^ 17) :
    fmt_017llu l = List.replicate (17 - (Nat.digits 10 l).length) '0'
      ++ (Nat.digits 10 l).reverse.map Nat.digitChar := by
  unfold fmt_017llu
  by_cases h0 : l = 0
  · subst h0; rw [toDigits_zero, Nat.digits_zero]; rfl
  · rw [toDigits_pos l (by omega)]; simp

theorem fmt_017llu_length (l : Nat) (hl : l < 10 ^ 17) : (fmt_017llu l).length = 17 := by
  have := toDigits_length_le l 17 (by norm_num) hl
  unfold fmt_017llu
  simp only [List.length_append, List.length_replicate]
  omega

theorem fmt_017llu_ne_NUL (l : Nat) : ∀ c ∈ fmt_017llu l, c ≠ NUL := by
  intro c hc
  unfold fmt_017llu at hc
  rcases List.mem_append.1 hc with h | h
  · rw [(List.mem_replicate.1 h).2]; decide
  · exact toDigits_ne_NUL l c h

/-- The numeral of `h * 10^17 + l` is the numeral of `h` followed by `l`
padded to 17 digits. -/
theorem toDigits_split (h l : Nat) (hh : 0 < h) (hl : l < 10 ^ 17) :
    Nat.toDigits 10 (h * 10 ^ 17 + l) = Nat.toDigits 10 h ++ fmt_017llu l := by
  have hlen := digits_length_le l 17 hl
  have key := Nat.digits_append_zeroes_append_digits (b := 10)
    (k := 17 - (Nat.digits 10 l).length) (m := h) (n := l) (by norm_num) hh
  have e : (Nat.digits 10 l).length + (17 - (Nat.digits 10 l).length) = 17 := by omega
  rw [e] at key
  have e2 : l + 10 ^ 17 * h = h * 10 ^ 17 + l := by ring
  rw [e2] at key
  have hpos : 0 < h * 10 ^ 17 + l := by positivity
  rw [toDigits_pos _ hpos, toDigits_pos h hh, fmt_017llu_digits l hl, ← key]
  simp only [List.reverse_append, List.reverse_replicate, List.map_append, List.map_replicate,
    List.append_assoc]
  rfl

theorem U64_lt : U64 < 10 ^ 20 := by unfold U64; norm_num

theorem snprintf_first (u : List Char) (hu : u.length ≤ 20) :
    snprintf (List.replicate 40 NUL) 0 (u.length + 1) u
      = some (u ++ NUL :: List.replicate (39 - u.length) NUL) := by
  rw [snprintf_fit _ _ _ (by simp; omega)]
  simp only [List.take_zero, List.nil_append, Nat.zero_add, List.drop_replicate]
  have e : 40 - (u.length + 1) = 39 - u.length := by omega
  rw [e]

theorem snprintf_again (u r : List Char) :
    snprintf (u ++ NUL :: r) 0 (u.length + 1) u = some (u ++ NUL :: r) := by
  rw [snprintf_fit _ _ _ (by simp)]
  simp

theorem snprintf_tail (u p : List Char) (n : Nat) (hn : p.length ≤ n) :
    snprintf (u ++ NUL :: List.replicate n NUL) u.length (p.length + 1) p
      = some (u ++ p ++ NUL :: List.replicate (n - p.length) NUL) := by
  rw [snprintf_fit _ _ _ (by simp; omega)]
  have e : u.length + p.length + 1 = u.length + (p.length + 1) := by omega
  rw [e, List.drop_append, List.take_left']
  · simp
  · rfl

theorem snprintf_over (u l : List Char) (n : Nat) (hl : l.length ≤ u.length + n) :
    ∃ r, snprintf (u ++ NUL :: List.replicate n NUL) 0 (l.length + 1) l = some (l ++ NUL :: r)
      ∧ (l ++ NUL :: r).length = u.length + 1 + n := by
  rw [snprintf_fit _ _ _ (by simp; omega)]
  refine ⟨List.drop (0 + l.length + 1) (u ++ NUL :: List.replicate n NUL), by simp, ?_⟩
  simp
  omega

/-- Contents of `ns` when the high limb is not zero. -/
theorem fib_format_high (v : ui128_t) (h0 : v.dec_upper ≠ 0) (hu : v.dec_upper < U64)
    (hl : v.dec_lower < 10 ^ 17) :
    ∃ r, fib_format v
        = some (Nat.toDigits 10 v.dec_upper ++ fmt_017llu v.dec_lower ++ NUL :: r)
      ∧ (Nat.toDigits 10 v.dec_upper ++ fmt_017llu v.dec_lower ++ NUL :: r).length = 40 := by
  have hlu := toDigits_length_le v.dec_upper 20 (by norm_num) (lt_trans hu U64_lt)
  have hp := fmt_017llu_length v.dec_lower hl
  have h18 : (18 : Nat) = (fmt_017llu v.dec_lower).length + 1 := by omega
  refine ⟨List.replicate (39 - (Nat.toDigits 10 v.dec_upper).length
    - (fmt_017llu v.dec_lower).length) NUL, ?_, ?_⟩
  · simp only [fib_format, cntdig_eq_length, fmt_llu, snprintf_first _ hlu, ne_eq, h0,
      not_false_eq_true, if_true, snprintf_again, Option.bind_eq_bind, Option.some_bind]
    rw [h18, snprintf_tail _ _ _ (by omega)]
  · simp only [List.length_append, List.length_cons, List.length_replicate, hp]
    omega

/-- Contents of `ns` when the high limb is zero. -/
theorem fib_format_low (v : ui128_t) (h0 : v.dec_upper = 0) (hl : v.dec_lower < 10 ^ 17) :
    ∃ r, fib_format v = some (Nat.toDigits 10 v.dec_lower ++ NUL :: r)
      ∧ (Nat.toDigits 10 v.dec_lower ++ NUL :: r).length = 40 := by
  have hll := toDigits_length_le v.dec_lower 17 (by norm_num) hl
  have hz : (Nat.toDigits 10 0).length = 1 := by rw [toDigits_zero]; rfl
  obtain ⟨r, hr, hlen⟩ := snprintf_over (Nat.toDigits 10 0) (Nat.toDigits 10 v.dec_lower) 38
    (by omega)
  refine ⟨r, ?_, by rw [hlen, hz]⟩
  have h1 := snprintf_first (Nat.toDigits 10 0) (by omega)
  rw [hz] at h1
  simp only [fib_format, cntdig_eq_length, fmt_llu, h0, hz, h1, ne_eq, not_true_eq_false,
    if_false, Option.bind_eq_bind, Option.some_bind]
  exact hr

theorem parse_digits (l : List Nat) (h : ∀ d ∈ l, d < 10) :
    parse_decimal (l.reverse.map Nat.digitChar) = Nat.ofDigits 10 l := by
  induction l with
  | nil => rfl
  | cons d t ih =>
    have hd : d < 10 := h d (by simp)
    have ht := ih (fun x hx => h x (by simp [hx]))
    unfold parse_decimal at ht ⊢
    simp only [List.reverse_cons, List.map_append, List.map_cons, List.map_nil, List.foldl_append,
      List.foldl_cons, List.foldl_nil, ht, digitChar_toNat d hd, Nat.ofDigits_cons]
    omega

theorem parse_toDigits (n : Nat) : parse_decimal (Nat.toDigits 10 n) = n := by
  by_cases hn : n = 0
  · subst hn; rw [toDigits_zero]; rfl
  · rw [toDigits_pos n (by omega), parse_digits _ (fun d hd => Nat.digits_lt_base (by norm_num) hd),
      Nat.ofDigits_digits]

theorem toDigits_head (n : Nat) (hn : n ≠ 0) : (Nat.toDigits 10 n).head? ≠ some '0' := by
  have hne : Nat.digits 10 n ≠ [] := Nat.digits_ne_nil_iff_ne_zero.mpr hn
  have hlast := Nat.getLast_digit_ne_zero 10 hn
  have hlt : (Nat.digits 10 n).getLast hne < 10 :=
    Nat.digits_lt_base (by norm_num) (List.getLast_mem hne)
  rw [toDigits_pos n (by omega), List.head?_map, List.head?_reverse,
    List.getLast?_eq_getLast _ hne]
  generalize (Nat.digits 10 n).getLast hne = d at hlast hlt
  interval_cases d
  · exact absurd rfl hlast
  all_goals decide

theorem fib_read_of_format (k : Int) (v : ui128_t) (s r : List Char) (uncopied : Nat)
    (hv : fib_sequence k = some v) (hf : fib_format v = some (s ++ NUL :: r))
    (hs : ∀ c ∈ s, c ≠ NUL) :
    fib_read k uncopied = some
      { ret := if uncopied ≠ 0 then -1 else (s.length : Int)
        pos := k
        sent := s ++ [NUL]
        user := (s ++ [NUL]).take (s.length + 1 - uncopied) } := by
  have ht : List.take (s.length + 1) (s ++ NUL :: r) = s ++ [NUL] := by
    rw [List.take_append_eq_append_take]
    simp
  simp only [fib_read, hv, hf, strlen_append s r hs, Option.bind_eq_bind, Option.some_bind, ht]
  split <;> rfl

/-- The buffer holds the numeral of the value, then a terminator. -/
theorem fib_format_numeral (v : ui128_t) (hl : v.dec_lower < 10 ^ 17) (hu : v.dec_upper < U64) :
    ∃ r, fib_format v
        = some (Nat.toDigits 10 (v.dec_upper * 10 ^ 17 + v.dec_lower) ++ NUL :: r)
      ∧ (Nat.toDigits 10 (v.dec_upper * 10 ^ 17 + v.dec_lower) ++ NUL :: r).length = 40 := by
  by_cases h0 : v.dec_upper = 0
  · obtain ⟨r, hr, hlen⟩ := fib_format_low v h0 hl
    refine ⟨r, ?_, ?_⟩
    · rw [hr, h0]; simp
    · rw [h0]; simpa using hlen
  · obtain ⟨r, hr, hlen⟩ := fib_format_high v h0 hu hl
    rw [← toDigits_split _ _ (by omega) hl] at hr hlen
    exact ⟨r, hr, hlen⟩

set_option maxRecDepth 100000 in
/-- The read at position 92, evaluated. -/
theorem fib_read_92 :
    (fib_read 92 0).map (fun r => c_string r.user) = some "7540113804746346429".toList := by
  decide

/-! ## Termination of `fib_sequence` -/

theorem fib_loop_exit (fuel : Nat) (k i : Int) (fn fn1 : ui128_t) (hf : 0 < fuel) (h : ¬ i ≤ k) :
    fib_loop fuel k i fn fn1 = some fn1 := by
  cases fuel with
  | zero => omega
  | succ f => simp only [fib_loop, h, if_false]

theorem fib_loop_terminates (s : Nat) : ∀ (fuel : Nat) (i : Int) (fn fn1 : ui128_t),
    s < fuel → 2 ≤ i → i + s ≤ LLONG_MAX →
    ∃ r, fib_loop fuel (i + s - 1) i fn fn1 = some r := by
  induction s with
  | zero =>
    intro fuel i fn fn1 hf _ _
    obtain ⟨f, rfl⟩ : ∃ f, fuel = f + 1 := ⟨fuel - 1, by omega⟩
    have : ¬ (i ≤ i + ((0 : Nat) : Int) - 1) := by omega
    exact ⟨fn1, by simp [fib_loop, this]⟩
  | succ s ih =>
    intro fuel i fn fn1 hf hi hmax
    obtain ⟨f, rfl⟩ : ∃ f, fuel = f + 1 := ⟨fuel - 1, by omega⟩
    have hle : i ≤ i + ((s + 1 : Nat) : Int) - 1 := by omega
    have hw : wrapS64 (i + 1) = i + 1 := by
      apply wrapS64_id
      unfold isS64 LLONG_MIN
      unfold LLONG_MAX at hmax ⊢
      omega
    have hk : i + ((s + 1 : Nat) : Int) - 1 = (i + 1) + (s : Int) - 1 := by push_cast; omega
    simp only [fib_loop, hle, if_true, hw]
    rw [hk]
    exact ih f (i + 1) _ _ (by omega) (by omega) (by push_cast at hmax; omega)

theorem fib_sequence_terminates (k : Int) (hk : isS64 k) (hmax : k ≠ LLONG_MAX) :
    ∃ r, fib_sequence k = some r := by
  unfold isS64 LLONG_MIN LLONG_MAX at hk
  unfold LLONG_MAX at hmax
  unfold fib_sequence
  simp only
  split
  · exact ⟨_, rfl⟩
  · split
    · exact ⟨_, rfl⟩
    · by_cases h2 : 2 ≤ k
      · have key := fib_loop_terminates (k - 1).toNat U64 2 ⟨0, 0⟩ ⟨1, 0⟩
          (by unfold U64; omega) (by omega) (by unfold LLONG_MAX; omega)
        have e : (2 : Int) + ((k - 1).toNat : Int) - 1 = k := by omega
        rw [e] at key
        exact key
      · have : ¬ ((2 : Int) ≤ k) := h2
        exact ⟨_, fib_loop_exit U64 k 2 _ _ (by unfold U64; omega) this⟩

theorem fib_read_terminates (k : Int) (uncopied : Nat) (hk : isS64 k) (hmax : k ≠ LLONG_MAX) :
    ∃ r, fib_read k uncopied = some r := by
  obtain ⟨v, hv⟩ := fib_sequence_terminates k hk hmax
  obtain ⟨hl, hu⟩ := fib_sequence_limbs k v hv
  obtain ⟨r, hr, _⟩ := fib_format_numeral v (by unfold DEC_LOWDIGIT_BOUND at hl; omega) hu
  exact ⟨_, fib_read_of_format k v _ r uncopied hv hr (toDigits_ne_NUL _)⟩

theorem fib_read_pos (k : Int) (uncopied : Nat) (r : ReadResult)
    (h : fib_read k uncopied = some r) : r.pos = k := by
  unfold fib_read at h
  simp only [Option.bind_eq_bind, Option.bind_eq_some] at h
  obtain ⟨v, _, ns, _, len, _, h⟩ := h
  split at h <;> (cases h; rfl)

theorem fib_read_sent (k : Int) (u1 u2 : Nat) (r1 r2 : ReadResult)
    (h1 : fib_read k u1 = some r1) (h2 : fib_read k u2 = some r2) : r1.sent = r2.sent := by
  unfold fib_read at h1 h2
  simp only [Option.bind_eq_bind, Option.bind_eq_some] at h1 h2
  obtain ⟨v, hv, ns, hns, len, hlen, h1⟩ := h1
  obtain ⟨v2, hv2, ns2, hns2, len2, hlen2, h2⟩ := h2
  rw [hv] at hv2; cases hv2
  rw [hns] at hns2; cases hns2
  rw [hlen] at hlen2; cases hlen2
  split at h1 <;> split at h2 <;> (cases h1; cases h2; rfl)

/-! ## Seeking and sessions -/

theorem lseek_range (f_pos offset orig : Int) :
    (fib_device_lseek f_pos offset orig).2 = (fib_device_lseek f_pos offset orig).1
      ∧ 0 ≤ (fib_device_lseek f_pos offset orig).1
      ∧ (fib_device_lseek f_pos offset orig).1 ≤ MAX_LENGTH := by
  simp only [fib_device_lseek, MAX_LENGTH]
  refine ⟨trivial, ?_, ?_⟩ <;> split <;> split <;> omega

theorem Op.run_range (ops : List Op) : ∀ p0 : Int, 0 ≤ p0 → p0 ≤ MAX_LENGTH →
    ∃ p, Op.run p0 ops = some p ∧ 0 ≤ p ∧ p ≤ MAX_LENGTH := by
  induction ops with
  | nil => intro p0 h0 h1; exact ⟨p0, rfl, h0, h1⟩
  | cons op ops ih =>
    intro p0 h0 h1
    cases op with
    | seek offset orig =>
      have h := lseek_range p0 offset orig
      obtain ⟨p, hp⟩ := ih (fib_device_lseek p0 offset orig).2 (by rw [h.1]; exact h.2.1)
        (by rw [h.1]; exact h.2.2)
      exact ⟨p, by simpa [Op.run, Op.step] using hp.1, hp.2⟩
    | read uncopied =>
      unfold MAX_LENGTH at h1
      obtain ⟨r, hr⟩ := fib_read_terminates p0 uncopied
        (by unfold isS64 LLONG_MIN LLONG_MAX; omega) (by unfold LLONG_MAX; omega)
      have hpos := fib_read_pos p0 uncopied r hr
      obtain ⟨p, hp⟩ := ih p0 h0 (by unfold MAX_LENGTH; exact h1)
      exact ⟨p, by simpa [Op.run, Op.step, hr, hpos] using hp.1, hp.2⟩
    | write =>
      obtain ⟨p, hp⟩ := ih p0 h0 h1
      exact ⟨p, by simpa [Op.run, Op.step, fib_write] using hp.1, hp.2⟩

theorem Call.step_inv (g : Gate) (c : Call)
    (h : g.sessions ≤ 1 ∧ (g.locked = true ↔ g.sessions = 1)) :
    (Call.step g c).sessions ≤ 1 ∧ ((Call.step g c).locked = true ↔ (Call.step g c).sessions = 1) := by
  obtain ⟨locked, sessions⟩ := g
  simp only at h
  cases c with
  | «open» =>
    cases locked with
    | true => simpa [Call.step, fib_open, mutex_trylock] using h
    | false =>
      have : sessions = 0 := by
        have := h.2; simp at this; omega
      simp [Call.step, fib_open, mutex_trylock, this]
  | close =>
    by_cases hs : sessions = 0
    · simpa [Call.step, hs] using h
    · have : sessions = 1 := by omega
      simp [Call.step, fib_release, mutex_unlock, this]

theorem Call.run_inv (cs : List Call) : ∀ g : Gate,
    (g.sessions ≤ 1 ∧ (g.locked = true ↔ g.sessions = 1)) →
    (Call.run g cs).sessions ≤ 1 ∧ ((Call.run g cs).locked = true ↔ (Call.run g cs).sessions = 1) := by
  induction cs with
  | nil => intro g h; exact h
  | cons c cs ih => intro g h; exact ih _ (Call.step_inv g c h)

/-! ## Claims -/

/-- C1: for every index `k` with `0 <= k <= MAX_LENGTH` (= 100), `fib_sequence(k)`
returns, and what it returns is the canonical two-limb representation of the
Fibonacci number `F(k)`: `dec_upper = F(k) / 10^17`, `dec_lower = F(k) % 10^17`,
hence `dec_upper * 10^17 + dec_lower = F(k)` with `dec_lower < 10^17`, both
limbs being 64-bit values. -/
theorem fib_sequence_correct (k : Int) (h0 : 0 ≤ k) (h1 : k ≤ MAX_LENGTH) :
    ∃ r, fib_sequence k = some r
      ∧ r.dec_upper = F k.toNat / 10 ^ 17
      ∧ r.dec_lower = F k.toNat % 10 ^ 17
      ∧ r.dec_upper * 10 ^ 17 + r.dec_lower = F k.toNat
      ∧ r.dec_lower < 10 ^ 17
      ∧ r.dec_lower < U64 ∧ r.dec_upper < U64 := by
  unfold MAX_LENGTH at h1
  obtain ⟨n, rfl⟩ : ∃ n : Nat, k = (n : Int) := ⟨k.toNat, by omega⟩
  have hn : n ≤ 100 := by omega
  have h10 : (10 : Nat) ^ 17 = DEC_LOWDIGIT_BOUND := by unfold DEC_LOWDIGIT_BOUND; norm_num
  obtain ⟨hseq, hval, hlo, hlo64, hup⟩ := fib_sequence_value n hn
  refine ⟨rep (F n), hseq, ?_, ?_, ?_, hlo, hlo64, hup⟩
  · rw [h10]; rfl
  · rw [h10]; rfl
  · simpa using hval

/-- Witness of C1: the index 100, where `F(100) = 354224848179261915075`. -/
theorem fib_sequence_correct_witness :
    (0 : Int) ≤ 100 ∧ (100 : Int) ≤ MAX_LENGTH ∧
      ∃ r, fib_sequence 100 = some r
        ∧ r.dec_upper = F (100 : Int).toNat / 10 ^ 17
        ∧ r.dec_lower = F (100 : Int).toNat % 10 ^ 17
        ∧ r.dec_upper * 10 ^ 17 + r.dec_lower = F (100 : Int).toNat
        ∧ r.dec_lower < 10 ^ 17
        ∧ r.dec_lower < U64 ∧ r.dec_upper < U64 :=
  ⟨by decide, by decide, fib_sequence_correct 100 (by decide) (by decide)⟩

/-- C3: for two-limb values `a`, `b` with `a.low < 10^17`, `b.low < 10^17`, true
sum `a.value + b.value < 10^35` and `a.low + b.low != 10^17`, the result of
`add_ui128_dec` stands for exactly the true sum. -/
theorem add_ui128_dec_exact (a b : ui128_t)
    (ha : a.dec_lower < 10 ^ 17) (hb : b.dec_lower < 10 ^ 17)
    (hsum : (a.dec_upper * 10 ^ 17 + a.dec_lower) + (b.dec_upper * 10 ^ 17 + b.dec_lower) < 10 ^ 35)
    (hne : a.dec_lower + b.dec_lower ≠ 10 ^ 17) :
    (add_ui128_dec a b).dec_upper * 10 ^ 17 + (add_ui128_dec a b).dec_lower
      = (a.dec_upper * 10 ^ 17 + a.dec_lower) + (b.dec_upper * 10 ^ 17 + b.dec_lower) := by
  norm_num at ha hb hsum hne ⊢
  simp only [add_ui128_dec, DEC_LOWDIGIT_BOUND, U64]
  split <;> omega

/-- Witness of C3: `(3*10^17 + 99999999999999999) + (4*10^17 + 2)`. -/
theorem add_ui128_dec_exact_witness :
    (add_ui128_dec ⟨99999999999999999, 3⟩ ⟨2, 4⟩).dec_upper * 10 ^ 17
        + (add_ui128_dec ⟨99999999999999999, 3⟩ ⟨2, 4⟩).dec_lower
      = (3 * 10 ^ 17 + 99999999999999999) + (4 * 10 ^ 17 + 2) :=
  add_ui128_dec_exact ⟨99999999999999999, 3⟩ ⟨2, 4⟩ (by norm_num) (by norm_num) (by norm_num)
    (by norm_num)

/-- C4: `add_ui128_dec` is commutative: for all field values, `add(a, b)` and
`add(b, a)` have the same high limb and the same low limb. -/
theorem add_ui128_dec_comm (a b : ui128_t) :
    (add_ui128_dec a b).dec_upper = (add_ui128_dec b a).dec_upper
      ∧ (add_ui128_dec a b).dec_lower = (add_ui128_dec b a).dec_lower := by
  simp only [add_ui128_dec, Nat.add_comm a.dec_upper b.dec_upper,
    Nat.add_comm a.dec_lower b.dec_lower, and_self]

/-- C5: when `a.low + b.low` is exactly `10^17`, `add_ui128_dec` does not carry:
the result has `high = (a.high + b.high) mod 2^64` and `low = 0`, and when the
high limbs do not overflow it stands for exactly `10^17` less than the true
sum.  When `a.low + b.low > 10^17` (both lows below `10^17`) the carry of 1 is
added to the high limb. -/
theorem add_ui128_dec_boundary (a b : ui128_t) :
    (a.dec_lower + b.dec_lower = 10 ^ 17 →
        (add_ui128_dec a b).dec_upper = (a.dec_upper + b.dec_upper) % 2 ^ 64
          ∧ (add_ui128_dec a b).dec_lower = 0
          ∧ (a.dec_upper + b.dec_upper < 2 ^ 64 →
              (add_ui128_dec a b).value + 10 ^ 17 = a.value + b.value))
      ∧ (a.dec_lower < 10 ^ 17 → b.dec_lower < 10 ^ 17 → a.dec_lower + b.dec_lower > 10 ^ 17 →
          (add_ui128_dec a b).dec_upper = (a.dec_upper + b.dec_upper + 1) % 2 ^ 64
            ∧ (add_ui128_dec a b).dec_lower = a.dec_lower + b.dec_lower - 10 ^ 17) := by
  norm_num
  simp only [add_ui128_dec, ui128_t.value, DEC_LOWDIGIT_BOUND, U64]
  refine ⟨?_, ?_⟩
  · intro h
    refine ⟨?_, ?_, ?_⟩
    · split <;> omega
    · omega
    · intro hh
      split <;> omega
  · intro ha hb h
    refine ⟨?_, ?_⟩
    · split <;> omega
    · omega

/-- Witness of C5: `1 + (10^17 - 1)` in the low limbs gives no carry, and
`2 + (10^17 - 1)` carries. -/
theorem add_ui128_dec_boundary_witness :
    (add_ui128_dec ⟨1, 2⟩ ⟨99999999999999999, 3⟩).dec_upper = 5 % 2 ^ 64
      ∧ (add_ui128_dec ⟨1, 2⟩ ⟨99999999999999999, 3⟩).dec_lower = 0
      ∧ (add_ui128_dec ⟨1, 2⟩ ⟨99999999999999999, 3⟩).value + 10 ^ 17
          = (⟨1, 2⟩ : ui128_t).value + (⟨99999999999999999, 3⟩ : ui128_t).value
      ∧ (add_ui128_dec ⟨2, 2⟩ ⟨99999999999999999, 3⟩).dec_upper = 6 % 2 ^ 64
      ∧ (add_ui128_dec ⟨2, 2⟩ ⟨99999999999999999, 3⟩).dec_lower = 2 + 99999999999999999 - 10 ^ 17 :=
  have h1 := (add_ui128_dec_boundary ⟨1, 2⟩ ⟨99999999999999999, 3⟩).1 (by norm_num)
  have h2 := (add_ui128_dec_boundary ⟨2, 2⟩ ⟨99999999999999999, 3⟩).2 (by norm_num) (by norm_num)
    (by norm_num)
  ⟨h1.1, h1.2.1, h1.2.2 (by norm_num), h2.1, h2.2⟩

/-- C6: for every two-limb value `v` with `v.low < 10^17` and a 64-bit `v.high`,
the formatting code of `fib_read` fills `ns` with a string that is the
canonical decimal numeral of `v.high * 10^17 + v.low`: the minimal digits of
`v.low` when `v.high == 0` (so `"0"` for zero), the minimal digits of `v.high`
followed by `v.low` zero-padded to exactly 17 digits otherwise.  The string has
no leading zero unless it is `"0"`, and read as a decimal number it gives back
`v.high * 10^17 + v.low`. -/
theorem fib_format_canonical (v : ui128_t) (hl : v.dec_lower < 10 ^ 17) (hu : v.dec_upper < 2 ^ 64) :
    ∃ ns, fib_format v = some ns
      ∧ ns.length = 40
      ∧ strlen ns = some (c_string ns).length
      ∧ c_string ns = Nat.toDigits 10 (v.dec_upper * 10 ^ 17 + v.dec_lower)
      ∧ (v.dec_upper = 0 → c_string ns = Nat.toDigits 10 v.dec_lower)
      ∧ (v.dec_upper = 0 → v.dec_lower = 0 → c_string ns = ['0'])
      ∧ (v.dec_upper ≠ 0 → ∃ p, c_string ns = Nat.toDigits 10 v.dec_upper ++ p
          ∧ p.length = 17
          ∧ p = List.replicate (17 - (Nat.toDigits 10 v.dec_lower).length) '0'
                  ++ Nat.toDigits 10 v.dec_lower)
      ∧ (c_string ns = ['0'] ∨ (c_string ns).head? ≠ some '0')
      ∧ parse_decimal (c_string ns) = v.dec_upper * 10 ^ 17 + v.dec_lower := by
  have hu' : v.dec_upper < U64 := by unfold U64; norm_num at hu; exact hu
  obtain ⟨r, hr, hlen⟩ := fib_format_numeral v hl hu'
  have hcs := c_string_append _ r (toDigits_ne_NUL (v.dec_upper * 10 ^ 17 + v.dec_lower))
  have hsl := strlen_append _ r (toDigits_ne_NUL (v.dec_upper * 10 ^ 17 + v.dec_lower))
  refine ⟨_, hr, hlen, ?_, hcs, ?_, ?_, ?_, ?_, ?_⟩
  · rw [hsl, hcs]
  · intro h0; rw [hcs, h0]; simp
  · intro h0 h1; rw [hcs, h0, h1]; rfl
  · intro h0
    refine ⟨fmt_017llu v.dec_lower, ?_, fmt_017llu_length _ hl, rfl⟩
    rw [hcs, toDigits_split _ _ (by omega) hl]
  · rw [hcs]
    by_cases hz : v.dec_upper * 10 ^ 17 + v.dec_lower = 0
    · left; rw [hz]; rfl
    · right; exact toDigits_head _ hz
  · rw [hcs, parse_toDigits]

/-- Witness of C6: the value `3 * 10^17 + 5`. -/
theorem fib_format_canonical_witness :
    ∃ ns, fib_format ⟨5, 3⟩ = some ns
      ∧ ns.length = 40
      ∧ strlen ns = some (c_string ns).length
      ∧ c_string ns = Nat.toDigits 10 (3 * 10 ^ 17 + 5)
      ∧ ((3 : Nat) = 0 → c_string ns = Nat.toDigits 10 5)
      ∧ ((3 : Nat) = 0 → (5 : Nat) = 0 → c_string ns = ['0'])
      ∧ ((3 : Nat) ≠ 0 → ∃ p, c_string ns = Nat.toDigits 10 3 ++ p
          ∧ p.length = 17
          ∧ p = List.replicate (17 - (Nat.toDigits 10 5).length) '0' ++ Nat.toDigits 10 5)
      ∧ (c_string ns = ['0'] ∨ (c_string ns).head? ≠ some '0')
      ∧ parse_decimal (c_string ns) = 3 * 10 ^ 17 + 5 :=
  fib_format_canonical ⟨5, 3⟩ (by norm_num) (by norm_num)

/-- C2: for every cursor position `k` with `0 <= k <= 100`, a read whose copy
succeeds hands over exactly the minimal decimal numeral of `F(k)` (followed by
the terminator) and delivers all of it; position 0 gives `"0"`, positions 1 and
2 give `"1"`, position 10 gives `"55"` and position 92 gives
`"7540113804746346429"`. -/
theorem fib_read_numeral :
    (∀ k : Int, 0 ≤ k → k ≤ 100 →
        ∃ r, fib_read k 0 = some r
          ∧ r.sent = Nat.toDigits 10 (F k.toNat) ++ [NUL]
          ∧ r.user = r.sent
          ∧ c_string r.user = Nat.toDigits 10 (F k.toNat)
          ∧ 0 ≤ r.ret)
      ∧ (fib_read 0 0).map (fun r => c_string r.user) = some "0".toList
      ∧ (fib_read 1 0).map (fun r => c_string r.user) = some "1".toList
      ∧ (fib_read 2 0).map (fun r => c_string r.user) = some "1".toList
      ∧ (fib_read 10 0).map (fun r => c_string r.user) = some "55".toList
      ∧ (fib_read 92 0).map (fun r => c_string r.user) = some "7540113804746346429".toList := by
  refine ⟨?_, by decide, by decide, by decide, by decide, fib_read_92⟩
  intro k h0 h1
  obtain ⟨n, rfl⟩ : ∃ n : Nat, k = (n : Int) := ⟨k.toNat, by omega⟩
  obtain ⟨hv, hval, hl, _, hu⟩ := fib_sequence_value n (by omega)
  obtain ⟨r, hr, _⟩ := fib_format_numeral _ hl hu
  rw [hval] at hr
  have hread := fib_read_of_format n _ _ r 0 hv hr (toDigits_ne_NUL _)
  simp only [Int.toNat_ofNat]
  refine ⟨_, hread, rfl, ?_, ?_, ?_⟩
  · simp
  · simp only [Nat.sub_zero]
    rw [List.take_of_length_le (by simp)]
    have := c_string_append (Nat.toDigits 10 (F n)) [] (toDigits_ne_NUL _)
    simpa using this
  · simp

/-- Witness of C2: the read at position 10. -/
theorem fib_read_numeral_witness :
    (0 : Int) ≤ 10 ∧ (10 : Int) ≤ 100 ∧
      ∃ r, fib_read 10 0 = some r
        ∧ r.sent = Nat.toDigits 10 (F (10 : Int).toNat) ++ [NUL]
        ∧ r.user = r.sent
        ∧ c_string r.user = Nat.toDigits 10 (F (10 : Int).toNat)
        ∧ 0 ≤ r.ret :=
  ⟨by decide, by decide, fib_read_numeral.1 10 (by decide) (by decide)⟩

/-- C7, the claim as stated fails: seeking from the end with the offset
`-2^63`, the candidate `100 - offset = 2^63 + 100` does not fit `loff_t`; the
code clamps the wrapped value and returns 0, while the clamp of the
mathematical candidate is 100. -/
theorem fib_device_lseek_end_overflow :
    isS64 (-9223372036854775808)
      ∧ (fib_device_lseek 0 (-9223372036854775808) 2).1 = 0
      ∧ clamp (MAX_LENGTH - (-9223372036854775808)) 0 MAX_LENGTH = 100
      ∧ (fib_device_lseek 0 (-9223372036854775808) 2).1
          ≠ clamp (MAX_LENGTH - (-9223372036854775808)) 0 MAX_LENGTH := by
  decide

/-- C7, amended: for whence 0, 1, 2, every offset and every cursor,
`fib_device_lseek` returns `clamp(candidate, 0, MAX_LENGTH)` where the candidate
is `offset` (FromStart), `cursor + offset` (FromCurrent) or
`MAX_LENGTH - offset` (FromEnd), provided the candidate fits the signed 64-bit
type `loff_t`; in general it returns the clamp of the candidate wrapped to 64
bits.  In particular `seek(FromStart, -5) = 0`, `seek(FromStart, 1000) = 100`
and `seek(FromEnd, 0) = 100`. -/
theorem fib_device_lseek_clamp (f_pos offset : Int) :
    (fib_device_lseek f_pos offset 0).1 = clamp offset 0 MAX_LENGTH
      ∧ (isS64 (f_pos + offset) →
          (fib_device_lseek f_pos offset 1).1 = clamp (f_pos + offset) 0 MAX_LENGTH)
      ∧ (isS64 (MAX_LENGTH - offset) →
          (fib_device_lseek f_pos offset 2).1 = clamp (MAX_LENGTH - offset) 0 MAX_LENGTH)
      ∧ (fib_device_lseek f_pos offset 1).1 = clamp (wrapS64 (f_pos + offset)) 0 MAX_LENGTH
      ∧ (fib_device_lseek f_pos offset 2).1 = clamp (wrapS64 (MAX_LENGTH - offset)) 0 MAX_LENGTH
      ∧ (fib_device_lseek f_pos (-5) 0).1 = 0
      ∧ (fib_device_lseek f_pos 1000 0).1 = MAX_LENGTH
      ∧ (fib_device_lseek f_pos 0 2).1 = MAX_LENGTH := by
  have hcl : ∀ x : Int,
      (if (if x > MAX_LENGTH then MAX_LENGTH else x) < 0 then 0
        else (if x > MAX_LENGTH then MAX_LENGTH else x)) = clamp x 0 MAX_LENGTH := by
    intro x
    unfold clamp MAX_LENGTH
    split_ifs <;> omega
  refine ⟨?_, ?_, ?_, ?_, ?_, ?_, ?_, ?_⟩
  · simpa [fib_device_lseek] using hcl offset
  · intro h
    have := hcl (wrapS64 (f_pos + offset))
    rw [wrapS64_id _ h] at this
    simpa [fib_device_lseek, wrapS64_id _ h] using this
  · intro h
    have := hcl (wrapS64 (MAX_LENGTH - offset))
    rw [wrapS64_id _ h] at this
    simpa [fib_device_lseek, wrapS64_id _ h] using this
  · simpa [fib_device_lseek] using hcl (wrapS64 (f_pos + offset))
  · simpa [fib_device_lseek] using hcl (wrapS64 (MAX_LENGTH - offset))
  · simp [fib_device_lseek, MAX_LENGTH]
  · simp [fib_device_lseek, MAX_LENGTH]
  · have hw : wrapS64 100 = 100 := by decide
    simp [fib_device_lseek, hw, MAX_LENGTH]

/-- Witness of C7 (amended): cursor 7, offset 50. -/
theorem fib_device_lseek_clamp_witness :
    isS64 (7 + 50) ∧ isS64 (MAX_LENGTH - 50)
      ∧ (fib_device_lseek 7 50 1).1 = clamp (7 + 50) 0 MAX_LENGTH
      ∧ (fib_device_lseek 7 50 2).1 = clamp (MAX_LENGTH - 50) 0 MAX_LENGTH :=
  ⟨by decide, by decide, (fib_device_lseek_clamp 7 50).2.1 (by decide),
    (fib_device_lseek_clamp 7 50).2.2.1 (by decide)⟩

/-- C8: for every whence value (valid or not), every offset and every prior
cursor, after `fib_device_lseek` the stored cursor `file->f_pos` equals the
value returned and lies in `[0, 100]`; and every sequence of seek, read and
write calls started at cursor 0 runs to its end with the cursor in `[0, 100]`. -/
theorem cursor_in_domain :
    (∀ f_pos offset orig : Int,
        (fib_device_lseek f_pos offset orig).2 = (fib_device_lseek f_pos offset orig).1
          ∧ 0 ≤ (fib_device_lseek f_pos offset orig).2
          ∧ (fib_device_lseek f_pos offset orig).2 ≤ 100)
      ∧ (∀ ops : List Op, ∃ p, Op.run 0 ops = some p ∧ 0 ≤ p ∧ p ≤ 100) := by
  refine ⟨?_, ?_⟩
  · intro f_pos offset orig
    have h := lseek_range f_pos offset orig
    rw [h.1]
    exact ⟨rfl, h.2.1, h.2.2⟩
  · intro ops
    exact Op.run_range ops 0 (by decide) (by decide)

/-- C9: `fib_read` leaves the cursor `*offset` unchanged, a second read at the
cursor it leaves returns as well and hands over the same bytes (the whole
result is the same when the copy has the same outcome), and the read returns
for every 64-bit cursor value other than `LLONG_MAX`. -/
theorem fib_read_idempotent :
    (∀ (pos : Int) (u : Nat) (r : ReadResult), fib_read pos u = some r → r.pos = pos)
      ∧ (∀ (pos : Int) (u1 u2 : Nat) (r1 : ReadResult), fib_read pos u1 = some r1 →
          ∃ r2, fib_read r1.pos u2 = some r2 ∧ r2.pos = pos ∧ r2.sent = r1.sent
            ∧ (u2 = u1 → r2 = r1))
      ∧ (∀ (pos : Int) (u : Nat), isS64 pos → pos ≠ LLONG_MAX → ∃ r, fib_read pos u = some r) := by
  refine ⟨fib_read_pos, ?_, fun pos u h1 h2 => fib_read_terminates pos u h1 h2⟩
  intro pos u1 u2 r1 h1
  have hp := fib_read_pos pos u1 r1 h1
  rw [hp]
  have hex : ∃ r2, fib_read pos u2 = some r2 := by
    unfold fib_read at h1 ⊢
    simp only [Option.bind_eq_bind, Option.bind_eq_some] at h1
    obtain ⟨v, hv, ns, hns, len, hlen, _⟩ := h1
    simp only [hv, hns, hlen, Option.bind_eq_bind, Option.some_bind]
    split <;> exact ⟨_, rfl⟩
  obtain ⟨r2, h2⟩ := hex
  refine ⟨r2, h2, fib_read_pos pos u2 r2 h2, fib_read_sent pos u2 u1 r2 r1 h2 h1, ?_⟩
  intro hu
  rw [hu, h1] at h2
  cases h2
  rfl

/-- Witness of C9: two reads at cursor 10. -/
theorem fib_read_idempotent_witness :
    ∃ r1 r2, fib_read 10 0 = some r1 ∧ r1.pos = 10 ∧ fib_read r1.pos 0 = some r2
      ∧ r2.pos = 10 ∧ r2.sent = r1.sent ∧ r2 = r1 := by
  obtain ⟨r1, h1⟩ := fib_read_idempotent.2.2 10 0 (by decide) (by decide)
  obtain ⟨r2, h2, hp, hs, he⟩ := fib_read_idempotent.2.1 10 0 0 r1 h1
  exact ⟨r1, r2, h1, fib_read_idempotent.1 10 0 r1 h1, h2, hp, hs, he rfl⟩

/-- C10: `fib_open` returns 0 and takes the lock exactly when the lock is free,
and returns `-EBUSY` leaving the lock held when it is held; after
`fib_release` the lock is free and the next `fib_open` succeeds; so after every
sequence of open and close calls at most one session is open, and the lock is
held exactly when one is. -/
theorem gate_mutual_exclusion :
    (∀ g : Gate, g.locked = false →
        fib_open g = (0, { locked := true, sessions := g.sessions + 1 }))
      ∧ (∀ g : Gate, g.locked = true → fib_open g = (-EBUSY, g))
      ∧ (∀ g : Gate, (fib_open g).1 = 0 ↔ g.locked = false)
      ∧ (∀ g : Gate, (fib_release g).1 = 0 ∧ (fib_release g).2.locked = false
          ∧ (fib_open (fib_release g).2).1 = 0
          ∧ (fib_open (fib_release g).2).2.locked = true)
      ∧ (∀ cs : List Call, (Call.run Gate.init cs).sessions ≤ 1
          ∧ ((Call.run Gate.init cs).locked = true ↔ (Call.run Gate.init cs).sessions = 1)) := by
  refine ⟨?_, ?_, ?_, ?_, ?_⟩
  · intro g h
    simp [fib_open, mutex_trylock, h]
  · intro g h
    obtain ⟨locked, sessions⟩ := g
    simp only at h
    simp [fib_open, mutex_trylock, h]
  · intro g
    cases h : g.locked <;> simp [fib_open, mutex_trylock, h, EBUSY]
  · intro g
    simp [fib_release, fib_open, mutex_trylock, mutex_unlock]
  · intro cs
    exact Call.run_inv cs Gate.init (by decide)

/-- Witness of C10: opening a free gate, then opening it again. -/
theorem gate_mutual_exclusion_witness :
    fib_open Gate.init = (0, { locked := true, sessions := 1 })
      ∧ fib_open { locked := true, sessions := 1 } = (-EBUSY, { locked := true, sessions := 1 }) :=
  ⟨gate_mutual_exclusion.1 Gate.init rfl,
    gate_mutual_exclusion.2.1 { locked := true, sessions := 1 } rfl⟩


/-! ## Claims on `fib_write`, the low limb, read failure and unknown whence -/

/-- C11: for every input buffer, size and cursor value, `fib_write` returns the
constant 1 and leaves the cursor and the state of the session lock unchanged. -/
theorem fib_write_noop (buf : List Char) (size : Nat) (d : Dev) :
    fib_write d.f_pos = (1, d.f_pos)
      ∧ (fib_write_call buf size d).1 = 1
      ∧ (fib_write_call buf size d).2.f_pos = d.f_pos
      ∧ (fib_write_call buf size d).2.gate = d.gate
      ∧ fib_write_call buf size d = (1, d) := by
  refine ⟨rfl, rfl, rfl, rfl, rfl⟩

/-- C12: for every pair of inputs, with no precondition, the low limb of the
result of `add_ui128_dec` is strictly below `10^17`. -/
theorem add_ui128_dec_low_bound (a b : ui128_t) : (add_ui128_dec a b).dec_lower < 10 ^ 17 := by
  have h := add_low_lt a b
  unfold DEC_LOWDIGIT_BOUND at h
  norm_num
  exact h

/-- C13: with the result of `copy_to_user` supplied by the environment,
`fib_read` returns `-1` if and only if the copy reports a non-zero number of
uncopied bytes and a non-negative value otherwise; the cursor is unchanged
either way; and the read does return for every 64-bit cursor other than
`LLONG_MAX`. -/
theorem fib_read_fails_iff :
    (∀ (pos : Int) (u : Nat) (r : ReadResult), fib_read pos u = some r →
        (r.ret = -1 ↔ u ≠ 0) ∧ (u = 0 → 0 ≤ r.ret) ∧ r.pos = pos)
      ∧ (∀ (pos : Int) (u : Nat), isS64 pos → pos ≠ LLONG_MAX → ∃ r, fib_read pos u = some r) := by
  refine ⟨?_, fun pos u h1 h2 => fib_read_terminates pos u h1 h2⟩
  intro pos u r h
  unfold fib_read at h
  simp only [Option.bind_eq_bind, Option.bind_eq_some] at h
  obtain ⟨v, _, ns, _, len, _, h⟩ := h
  split at h
  · next hu =>
    cases h
    exact ⟨⟨fun _ => hu, fun _ => rfl⟩, fun h0 => absurd h0 hu, rfl⟩
  · next hu =>
    cases h
    have hu0 : u = 0 := by simpa using hu
    refine ⟨⟨fun hret => ?_, fun hne => absurd hu0 hne⟩, fun _ => ?_, rfl⟩
    · simp only at hret; omega
    · simp

/-- Witness of C13: reads at cursor 10 with a copy that succeeds and with one
that leaves 3 bytes uncopied. -/
theorem fib_read_fails_iff_witness :
    (∃ r, fib_read 10 0 = some r ∧ ¬ r.ret = -1 ∧ 0 ≤ r.ret ∧ r.pos = 10)
      ∧ (∃ r, fib_read 10 3 = some r ∧ r.ret = -1 ∧ r.pos = 10) := by
  obtain ⟨r0, h0⟩ := fib_read_fails_iff.2 10 0 (by decide) (by decide)
  obtain ⟨r3, h3⟩ := fib_read_fails_iff.2 10 3 (by decide) (by decide)
  have k0 := fib_read_fails_iff.1 10 0 r0 h0
  have k3 := fib_read_fails_iff.1 10 3 r3 h3
  exact ⟨⟨r0, h0, fun h => (k0.1.1 h) rfl, k0.2.1 rfl, k0.2.2⟩,
    ⟨r3, h3, k3.1.2 (by decide), k3.2.2⟩⟩

/-- C18: a seek whose whence is none of 0, 1, 2 ignores the offset and the
current cursor: `fib_device_lseek` stores 0 in the cursor and returns 0, which
is not an error value. -/
theorem fib_device_lseek_unknown_whence (f_pos offset orig : Int)
    (h0 : orig ≠ 0) (h1 : orig ≠ 1) (h2 : orig ≠ 2) :
    (fib_device_lseek f_pos offset orig).1 = 0
      ∧ (fib_device_lseek f_pos offset orig).2 = 0
      ∧ ¬ (fib_device_lseek f_pos offset orig).1 < 0 := by
  simp [fib_device_lseek, h0, h1, h2, MAX_LENGTH]

/-- Witness of C18: whence 3 with cursor 42 and offset 77. -/
theorem fib_device_lseek_unknown_whence_witness :
    (fib_device_lseek 42 77 3).1 = 0
      ∧ (fib_device_lseek 42 77 3).2 = 0
      ∧ ¬ (fib_device_lseek 42 77 3).1 < 0 :=
  fib_device_lseek_unknown_whence 42 77 3 (by decide) (by decide) (by decide)


/-! ## Digit counting -/

theorem cntdig_pos_eq (n : Nat) (hn : 0 < n) : cntdig n = (Nat.digits 10 n).length := by
  rw [cntdig_eq_length, toDigits_pos n hn]
  simp

theorem cntdig_unfold (n : Nat) : cntdig n = if n / 10 = 0 then 1 else cntdig (n / 10) + 1 := by
  by_cases hn : n = 0
  · subst hn; rfl
  · have hpos : 0 < n := by omega
    rw [cntdig_pos_eq n hpos, Nat.digits_def' (by norm_num) hpos]
    by_cases hd : n / 10 = 0
    · simp [hd]
    · rw [if_neg hd, cntdig_pos_eq (n / 10) (by omega)]
      simp

theorem divsToZero_go_eq (fuel : Nat) : ∀ n : Nat, n ≤ fuel →
    divsToZero_go fuel n = (Nat.digits 10 n).length := by
  induction fuel with
  | zero =>
    intro n hn
    have : n = 0 := by omega
    subst this
    simp [divsToZero_go]
  | succ f ih =>
    intro n hn
    by_cases h0 : n = 0
    · subst h0; simp [divsToZero_go]
    · rw [Nat.digits_def' (by norm_num) (by omega)]
      simp only [divsToZero_go, h0, if_false, List.length_cons]
      rw [ih (n / 10) (by omega)]

theorem cntdig_bounds (n : Nat) (hn : 0 < n) : 10 ^ (cntdig n - 1) ≤ n ∧ n < 10 ^ cntdig n := by
  rw [cntdig_pos_eq n hn]
  have hlen : 0 < (Nat.digits 10 n).length := by
    rw [Nat.digits_def' (by norm_num) hn]; simp
  have hlt := Nat.lt_base_pow_length_digits (b := 10) (m := n) (by norm_num)
  have hle := Nat.base_pow_length_digits_le 10 n (by norm_num) (by omega)
  refine ⟨?_, hlt⟩
  obtain ⟨c, hc⟩ : ∃ c, (Nat.digits 10 n).length = c + 1 := ⟨_, (Nat.succ_pred_eq_of_pos hlen).symm⟩
  rw [hc] at hle ⊢
  rw [pow_succ] at hle
  simp only [Nat.add_sub_cancel]
  omega

/-- C15: `cntdig(0) = 1`; for `n > 0`, `cntdig(n)` is the one `c >= 1` with
`10^(c-1) <= n < 10^c`, so `1 <= cntdig(n) <= 20` for every 64-bit `n`; and
`cntdig(n)` is the number of divisions by 10 needed to bring `n` to 0, at
least 1. -/
theorem cntdig_spec :
    cntdig 0 = 1
      ∧ (∀ n : Nat, 0 < n → 10 ^ (cntdig n - 1) ≤ n ∧ n < 10 ^ cntdig n)
      ∧ (∀ n c : Nat, 0 < n → 1 ≤ c → 10 ^ (c - 1) ≤ n → n < 10 ^ c → c = cntdig n)
      ∧ (∀ n : Nat, n < 2 ^ 64 → 1 ≤ cntdig n ∧ cntdig n ≤ 20)
      ∧ (∀ n : Nat, cntdig n = max 1 (divsToZero n))
      ∧ (∀ n : Nat, cntdig n = if n / 10 = 0 then 1 else cntdig (n / 10) + 1) := by
  refine ⟨rfl, cntdig_bounds, ?_, ?_, ?_, cntdig_unfold⟩
  · intro n c hn hc hlo hhi
    obtain ⟨blo, bhi⟩ := cntdig_bounds n hn
    have h1 : c - 1 < cntdig n :=
      (Nat.pow_lt_pow_iff_right (by norm_num : 1 < 10)).1 (lt_of_le_of_lt hlo bhi)
    have h2 : cntdig n - 1 < c :=
      (Nat.pow_lt_pow_iff_right (by norm_num : 1 < 10)).1 (lt_of_le_of_lt blo hhi)
    omega
  · intro n hn
    rw [cntdig_eq_length]
    have h20 : n < 10 ^ 20 := lt_trans hn (by norm_num)
    have hle := toDigits_length_le n 20 (by norm_num) h20
    refine ⟨?_, hle⟩
    by_cases h0 : n = 0
    · subst h0; rw [toDigits_zero]; simp
    · rw [toDigits_pos n (by omega), Nat.digits_def' (by norm_num) (by omega)]; simp
  · intro n
    by_cases h0 : n = 0
    · subst h0; rfl
    · have hpos : 0 < n := by omega
      unfold divsToZero
      rw [divsToZero_go_eq n n (le_refl n), cntdig_pos_eq n hpos,
        Nat.digits_def' (by norm_num) hpos]
      simp

/-- Witness of C15: `cntdig(12345) = 5`, between `10^4` and `10^5`. -/
theorem cntdig_spec_witness :
    (10 ^ (cntdig 12345 - 1) ≤ 12345 ∧ 12345 < 10 ^ cntdig 12345)
      ∧ 5 = cntdig 12345
      ∧ (1 ≤ cntdig 12345 ∧ cntdig 12345 ≤ 20) :=
  ⟨cntdig_spec.2.1 12345 (by decide),
    cntdig_spec.2.2.1 12345 5 (by decide) (by decide) (by norm_num) (by norm_num),
    cntdig_spec.2.2.2.1 12345 (by norm_num)⟩


/-! ## Iteration count of `fib_sequence` -/

theorem fib_loop_never_exits (fuel : Nat) : ∀ (i : Int) (fn fn1 : ui128_t), isS64 i →
    fib_loop fuel LLONG_MAX i fn fn1 = none := by
  induction fuel with
  | zero => intro i fn fn1 _; rfl
  | succ f ih =>
    intro i fn fn1 hi
    have hle : i ≤ LLONG_MAX := hi.2
    simp only [fib_loop, hle, if_true]
    exact ih _ _ _ (wrapS64_range _)

theorem fib_loop_iters_never_exits (fuel : Nat) : ∀ i : Int, isS64 i →
    fib_loop_iters fuel LLONG_MAX i = none := by
  induction fuel with
  | zero => intro i _; rfl
  | succ f ih =>
    intro i hi
    have hle : i ≤ LLONG_MAX := hi.2
    simp only [fib_loop_iters, hle, if_true, ih _ (wrapS64_range _), Option.map_none']

theorem fib_loop_iters_count (s : Nat) : ∀ (fuel : Nat) (i : Int),
    s < fuel → 2 ≤ i → i + s ≤ LLONG_MAX →
    fib_loop_iters fuel (i + s - 1) i = some s := by
  induction s with
  | zero =>
    intro fuel i hf _ _
    obtain ⟨f, rfl⟩ : ∃ f, fuel = f + 1 := ⟨fuel - 1, by omega⟩
    have : ¬ (i ≤ i + ((0 : Nat) : Int) - 1) := by omega
    simp only [fib_loop_iters, this, if_false]
  | succ s ih =>
    intro fuel i hf hi hmax
    obtain ⟨f, rfl⟩ : ∃ f, fuel = f + 1 := ⟨fuel - 1, by omega⟩
    have hle : i ≤ i + ((s + 1 : Nat) : Int) - 1 := by omega
    have hw : wrapS64 (i + 1) = i + 1 := by
      apply wrapS64_id
      unfold isS64 LLONG_MIN
      unfold LLONG_MAX at hmax ⊢
      omega
    have hk : i + ((s + 1 : Nat) : Int) - 1 = (i + 1) + (s : Int) - 1 := by push_cast; omega
    simp only [fib_loop_iters, hle, if_true, hw]
    rw [hk, ih f (i + 1) (by omega) (by omega) (by push_cast at hmax; omega)]
    rfl

theorem fib_loop_iterate (s : Nat) : ∀ (fuel : Nat) (i : Int) (fn fn1 : ui128_t),
    s < fuel → 2 ≤ i → i + s ≤ LLONG_MAX →
    fib_loop fuel (i + s - 1) i fn fn1 = some (fib_body^[s] (fn, fn1)).2 := by
  induction s with
  | zero =>
    intro fuel i fn fn1 hf _ _
    have : ¬ (i ≤ i + ((0 : Nat) : Int) - 1) := by omega
    rw [fib_loop_exit fuel _ i fn fn1 (by omega) this]
    rfl
  | succ s ih =>
    intro fuel i fn fn1 hf hi hmax
    obtain ⟨f, rfl⟩ : ∃ f, fuel = f + 1 := ⟨fuel - 1, by omega⟩
    have hle : i ≤ i + ((s + 1 : Nat) : Int) - 1 := by omega
    have hw : wrapS64 (i + 1) = i + 1 := by
      apply wrapS64_id
      unfold isS64 LLONG_MIN
      unfold LLONG_MAX at hmax ⊢
      omega
    have hk : i + ((s + 1 : Nat) : Int) - 1 = (i + 1) + (s : Int) - 1 := by push_cast; omega
    simp only [fib_loop, hle, if_true, hw]
    rw [hk, ih f (i + 1) _ _ (by omega) (by omega) (by push_cast at hmax; omega)]
    rfl

/-- C16, the claim as stated fails: at `k = LLONG_MAX`, a 64-bit signed value,
the test `i <= k` holds for every value of the counter, so the loop of
`fib_sequence` is never left, whatever the fuel. -/
theorem fib_sequence_llong_max_diverges :
    isS64 9223372036854775807
      ∧ fib_sequence 9223372036854775807 = none
      ∧ fib_sequence_iters 9223372036854775807 = none
      ∧ ∀ fuel : Nat, fib_loop fuel 9223372036854775807 2 ⟨0, 0⟩ ⟨1, 0⟩ = none := by
  have h2 : isS64 2 := by decide
  refine ⟨by decide, ?_, ?_, fun fuel => fib_loop_never_exits fuel 2 _ _ h2⟩
  · have := fib_loop_never_exits U64 2 ⟨0, 0⟩ ⟨1, 0⟩ h2
    unfold LLONG_MAX at this
    simp only [fib_sequence]
    rw [if_neg (by decide), if_neg (by decide)]
    exact this
  · have := fib_loop_iters_never_exits U64 2 h2
    unfold LLONG_MAX at this
    simp only [fib_sequence_iters]
    rw [if_neg (by decide), if_neg (by decide)]
    exact this

/-- C16, amended: `fib_sequence` returns for every 64-bit signed `k` other than
`LLONG_MAX`; for every `k` with `2 <= k < LLONG_MAX` its loop body (one
`add_ui128_dec` and the shift of the two running values) runs exactly `k - 1`
times; for `k = 0` and `k = 1` no addition is made and the constants
`{high:0, low:0}` and `{high:0, low:1}` are returned. -/
theorem fib_sequence_iterations :
    (∀ k : Int, isS64 k → k ≠ LLONG_MAX → ∃ r, fib_sequence k = some r)
      ∧ (∀ k : Int, 2 ≤ k → k < LLONG_MAX →
          fib_sequence_iters k = some (k - 1).toNat
            ∧ fib_sequence k = some (fib_body^[(k - 1).toNat] (⟨0, 0⟩, ⟨1, 0⟩)).2)
      ∧ fib_sequence_iters 0 = some 0 ∧ fib_sequence 0 = some ⟨0, 0⟩
      ∧ fib_sequence_iters 1 = some 0 ∧ fib_sequence 1 = some ⟨1, 0⟩ := by
  refine ⟨fib_sequence_terminates, ?_, rfl, rfl, rfl, rfl⟩
  intro k h2 hmax
  have hmax2 : (2 : Int) + ((k - 1).toNat : Int) ≤ LLONG_MAX := by
    unfold LLONG_MAX at hmax ⊢; omega
  have hfuel : (k - 1).toNat < U64 := by
    unfold LLONG_MAX at hmax; unfold U64; omega
  have e : (2 : Int) + ((k - 1).toNat : Int) - 1 = k := by omega
  have hi := fib_loop_iters_count (k - 1).toNat U64 2 hfuel (by omega) hmax2
  have hl := fib_loop_iterate (k - 1).toNat U64 2 ⟨0, 0⟩ ⟨1, 0⟩ hfuel (by omega) hmax2
  rw [e] at hi hl
  have hk0 : k ≠ 0 := by omega
  have hk1 : k ≠ 1 := by omega
  refine ⟨?_, ?_⟩
  · simp only [fib_sequence_iters, hk0, hk1, if_false]; exact hi
  · simp only [fib_sequence, hk0, hk1, if_false]; exact hl

/-- Witness of C16 (amended): `k = 5` runs the loop body 4 times. -/
theorem fib_sequence_iterations_witness :
    (∃ r, fib_sequence 5 = some r)
      ∧ fib_sequence_iters 5 = some ((5 : Int) - 1).toNat
      ∧ fib_sequence 5 = some (fib_body^[((5 : Int) - 1).toNat] (⟨0, 0⟩, ⟨1, 0⟩)).2 :=
  ⟨fib_sequence_iterations.1 5 (by decide) (by decide),
    (fib_sequence_iterations.2.1 5 (by decide) (by decide)).1,
    (fib_sequence_iterations.2.1 5 (by decide) (by decide)).2⟩


/-! ## The exact range of the engine -/

theorem stepsOk_steps (s : Nat) : ∀ (a b j : Nat), stepsOk s a b = true → j < s →
    (fibIter j (a, b)).1 % DEC_LOWDIGIT_BOUND + (fibIter j (a, b)).2 % DEC_LOWDIGIT_BOUND
        ≠ DEC_LOWDIGIT_BOUND
      ∧ ((fibIter j (a, b)).1 + (fibIter j (a, b)).2) / DEC_LOWDIGIT_BOUND < U64 := by
  induction s with
  | zero => intro a b j _ hj; omega
  | succ s ih =>
    intro a b j hok hj
    simp only [stepsOk, Bool.and_eq_true, bne_iff_ne, ne_eq, decide_eq_true_eq] at hok
    cases j with
    | zero => exact ⟨hok.1.1, hok.1.2⟩
    | succ j => exact ih b (a + b) j hok.2 (by omega)

theorem F_no_boundary (m : Nat) (hm : m + 2 ≤ 175) :
    F m % DEC_LOWDIGIT_BOUND + F (m + 1) % DEC_LOWDIGIT_BOUND ≠ DEC_LOWDIGIT_BOUND := by
  have h := (stepsOk_steps 174 0 1 m stepsOk_174 (by omega)).1
  have hF := fibIter_F m 0
  have hF0 : (F 0, F (0 + 1)) = (0, 1) := rfl
  rw [hF0] at hF
  rw [hF] at h
  simpa using h

theorem fib_sequence_value_175 (n : Nat) (hn : n ≤ 175) :
    fib_sequence (n : Int) = some (rep (F n))
      ∧ (rep (F n)).dec_upper * 10 ^ 17 + (rep (F n)).dec_lower = F n
      ∧ (rep (F n)).dec_lower < 10 ^ 17
      ∧ (rep (F n)).dec_upper < U64 := by
  have h10 : (10 : Nat) ^ 17 = DEC_LOWDIGIT_BOUND := by unfold DEC_LOWDIGIT_BOUND; norm_num
  have hseq := fib_sequence_rep n hn
  have hlim := fib_sequence_limbs _ _ hseq
  have hdm := Nat.div_add_mod (F n) DEC_LOWDIGIT_BOUND
  refine ⟨hseq, ?_, ?_, hlim.2⟩
  · rw [h10]; simp only [rep]; rw [Nat.mul_comm]; exact hdm
  · rw [h10]; exact hlim.1

set_option maxRecDepth 100000 in
theorem fib_sequence_176 :
    fib_sequence 176 = some ⟨58691163510069157, 8613996750986141767⟩ := by
  decide

set_option maxRecDepth 100000 in
theorem F_176 : F 176 = 2706074082469569338358691163510069157 := by
  have hF := fibIter_F 176 0
  have hF0 : (F 0, F (0 + 1)) = (0, 1) := rfl
  rw [hF0] at hF
  have hv : (fibIter 176 (0, 1)).1 = 2706074082469569338358691163510069157 := by decide
  rw [hF] at hv
  simpa using hv

/-- C17: the exact safe bound of the engine is index 175.  For every `k` with
`0 <= k <= 175`, `fib_sequence(k)` satisfies
`dec_upper * 10^17 + dec_lower = F(k)` with `dec_lower < 10^17`: no step meets
low limbs that add up to exactly `10^17`, and the high limb `F(k) / 10^17` stays
below `2^64`.  For `k = 176` the high limb `F(176) / 10^17` exceeds 64 bits,
the stored high limb is its residue modulo `2^64`, and
`dec_upper * 10^17 + dec_lower` differs from `F(176)`. -/
theorem fib_sequence_safe_bound :
    (∀ k : Int, 0 ≤ k → k ≤ 175 →
        ∃ r, fib_sequence k = some r
          ∧ r.dec_upper * 10 ^ 17 + r.dec_lower = F k.toNat
          ∧ r.dec_lower < 10 ^ 17
          ∧ r.dec_upper = F k.toNat / 10 ^ 17
          ∧ F k.toNat / 10 ^ 17 < 2 ^ 64)
      ∧ (∀ m : Nat, m + 2 ≤ 175 → F m % 10 ^ 17 + F (m + 1) % 10 ^ 17 ≠ 10 ^ 17)
      ∧ (∃ r, fib_sequence 176 = some r
          ∧ r.dec_upper * 10 ^ 17 + r.dec_lower ≠ F 176
          ∧ 2 ^ 64 ≤ F 176 / 10 ^ 17
          ∧ r.dec_upper = (F 176 / 10 ^ 17) % 2 ^ 64
          ∧ r.dec_lower = F 176 % 10 ^ 17) := by
  have h10 : (10 : Nat) ^ 17 = DEC_LOWDIGIT_BOUND := by unfold DEC_LOWDIGIT_BOUND; norm_num
  have h64 : (2 : Nat) ^ 64 = U64 := by unfold U64; norm_num
  refine ⟨?_, ?_, ?_⟩
  · intro k h0 h1
    obtain ⟨n, rfl⟩ : ∃ n : Nat, k = (n : Int) := ⟨k.toNat, by omega⟩
    obtain ⟨hseq, hval, hlo, hup⟩ := fib_sequence_value_175 n (by omega)
    refine ⟨rep (F n), hseq, ?_, hlo, ?_, ?_⟩
    · simpa using hval
    · rw [h10]; rfl
    · rw [h10, h64]; exact hup
  · intro m hm
    rw [h10]
    exact F_no_boundary m hm
  · refine ⟨_, fib_sequence_176, ?_, ?_, ?_, ?_⟩ <;> rw [F_176] <;> norm_num

/-- Witness of C17: the index 175, the last one that is exact. -/
theorem fib_sequence_safe_bound_witness :
    (∃ r, fib_sequence 175 = some r
        ∧ r.dec_upper * 10 ^ 17 + r.dec_lower = F (175 : Int).toNat
        ∧ r.dec_lower < 10 ^ 17
        ∧ r.dec_upper = F (175 : Int).toNat / 10 ^ 17
        ∧ F (175 : Int).toNat / 10 ^ 17 < 2 ^ 64)
      ∧ F 173 % 10 ^ 17 + F (173 + 1) % 10 ^ 17 ≠ 10 ^ 17 :=
  ⟨fib_sequence_safe_bound.1 175 (by decide) (by decide),
    fib_sequence_safe_bound.2.1 173 (by decide)⟩


/-! ## Length of the numeral and the buffer `ns` -/

theorem F_le_succ (n : Nat) : F n ≤ F (n + 1) := by
  cases n with
  | zero => decide
  | succ m => rw [F]; omega

theorem F_mono (n m : Nat) (h : n ≤ m) : F n ≤ F m := by
  induction m with
  | zero =>
    have : n = 0 := by omega
    subst this
    exact le_refl _
  | succ m ih =>
    by_cases hn : n = m + 1
    · subst hn; exact le_refl _
    · exact le_trans (ih (by omega)) (F_le_succ m)

set_option maxRecDepth 100000 in
theorem F_100 : F 100 = 354224848179261915075 := by
  have hF := fibIter_F 100 0
  have hF0 : (F 0, F (0 + 1)) = (0, 1) := rfl
  rw [hF0] at hF
  have hv : (fibIter 100 (0, 1)).1 = 354224848179261915075 := by decide
  rw [hF] at hv
  simpa using hv

/-- Length of the numeral of a two-limb value, in terms of `cntdig`. -/
theorem numeral_length (v : ui128_t) (hl : v.dec_lower < 10 ^ 17) :
    (Nat.toDigits 10 (v.dec_upper * 10 ^ 17 + v.dec_lower)).length
      = if v.dec_upper = 0 then cntdig v.dec_lower else cntdig v.dec_upper + 17 := by
  by_cases h0 : v.dec_upper = 0
  · rw [if_pos h0, h0, cntdig_eq_length]; simp
  · rw [if_neg h0, toDigits_split _ _ (by omega) hl, List.length_append,
      fmt_017llu_length _ hl, cntdig_eq_length]

theorem cntdig_le_20 (n : Nat) (hn : n < U64) : cntdig n ≤ 20 := by
  rw [cntdig_eq_length]
  exact toDigits_length_le n 20 (by norm_num) (lt_trans hn U64_lt)

theorem cntdig_le_17 (n : Nat) (hn : n < 10 ^ 17) : cntdig n ≤ 17 := by
  rw [cntdig_eq_length]
  exact toDigits_length_le n 17 (by norm_num) hn

/-- The calls of `snprintf` behind a result of `fib_format`. -/
theorem fib_format_calls (v : ui128_t) (ns : List Char) (h : fib_format v = some ns) :
    ∃ ns1, snprintf (List.replicate 40 NUL) 0 (cntdig v.dec_upper + 1) (fmt_llu v.dec_upper)
          = some ns1
      ∧ (v.dec_upper ≠ 0 →
          ∃ ns2, snprintf ns1 0 (cntdig v.dec_upper + 1) (fmt_llu v.dec_upper) = some ns2
            ∧ snprintf ns2 (cntdig v.dec_upper) 18 (fmt_017llu v.dec_lower) = some ns)
      ∧ (v.dec_upper = 0 →
          snprintf ns1 0 (cntdig v.dec_lower + 1) (fmt_llu v.dec_lower) = some ns) := by
  simp only [fib_format, Option.bind_eq_bind, Option.bind_eq_some] at h
  obtain ⟨ns1, h1, h⟩ := h
  refine ⟨ns1, h1, ?_, ?_⟩
  · intro hne
    rw [if_pos hne] at h
    simp only [Option.bind_eq_some] at h
    exact h
  · intro he
    rw [if_neg (by simpa using he)] at h
    exact h

/-- C14: for every two-limb value with `low < 10^17` and a 64-bit high limb,
the high limb has at most 20 digits, so `digits of high + 17 + 1 <= 40`; every
`snprintf` call of `fib_read` stores inside the 40-byte array `ns`, and the
string with its terminator fits `ns`.  For every index `0 <= k <= 100` the
string made for `fib_sequence(k)` has at most 21 characters, the longest, at
`k = 100`, having exactly 21. -/
theorem ns_buffer_sufficient :
    (∀ v : ui128_t, v.dec_lower < 10 ^ 17 → v.dec_upper < 2 ^ 64 →
        cntdig v.dec_upper ≤ 20
          ∧ cntdig v.dec_upper + 17 + 1 ≤ 40
          ∧ ∃ ns ns1 len, fib_format v = some ns
              ∧ ns.length = 40
              ∧ snprintf (List.replicate 40 NUL) 0 (cntdig v.dec_upper + 1) (fmt_llu v.dec_upper)
                  = some ns1
              ∧ (v.dec_upper ≠ 0 →
                  ∃ ns2, snprintf ns1 0 (cntdig v.dec_upper + 1) (fmt_llu v.dec_upper) = some ns2
                    ∧ snprintf ns2 (cntdig v.dec_upper) 18 (fmt_017llu v.dec_lower) = some ns)
              ∧ (v.dec_upper = 0 →
                  snprintf ns1 0 (cntdig v.dec_lower + 1) (fmt_llu v.dec_lower) = some ns)
              ∧ strlen ns = some len
              ∧ len ≤ cntdig v.dec_upper + 17
              ∧ len + 1 ≤ 40)
      ∧ (∀ k : Int, 0 ≤ k → k ≤ 100 →
          ∃ v ns len, fib_sequence k = some v ∧ fib_format v = some ns ∧ ns.length = 40
            ∧ strlen ns = some len ∧ len ≤ 21 ∧ len + 1 ≤ 40)
      ∧ (∃ v ns, fib_sequence 100 = some v ∧ fib_format v = some ns ∧ strlen ns = some 21) := by
  have h64 : (2 : Nat) ^ 64 = U64 := by unfold U64; norm_num
  refine ⟨?_, ?_, ?_⟩
  · intro v hl hu
    rw [h64] at hu
    have h20 := cntdig_le_20 v.dec_upper hu
    have h17 := cntdig_le_17 v.dec_lower hl
    obtain ⟨r, hr, hlen⟩ := fib_format_numeral v hl hu
    obtain ⟨ns1, c1, c2, c3⟩ := fib_format_calls v _ hr
    have hs := strlen_append _ r (toDigits_ne_NUL (v.dec_upper * 10 ^ 17 + v.dec_lower))
    have hnl := numeral_length v hl
    refine ⟨h20, by omega, _, ns1, _, hr, hlen, c1, c2, c3, hs, ?_, ?_⟩
    · rw [hnl]; split <;> omega
    · rw [hnl]; split <;> omega
  · intro k h0 h1
    obtain ⟨n, rfl⟩ : ∃ n : Nat, k = (n : Int) := ⟨k.toNat, by omega⟩
    obtain ⟨hv, hval, hl, _, hu⟩ := fib_sequence_value n (by omega)
    obtain ⟨r, hr, hlen⟩ := fib_format_numeral _ hl hu
    have hs := strlen_append _ r
      (toDigits_ne_NUL ((rep (F n)).dec_upper * 10 ^ 17 + (rep (F n)).dec_lower))
    have hF : F n < 10 ^ 21 := by
      have := F_mono n 100 (by omega)
      rw [F_100] at this
      exact lt_of_le_of_lt this (by norm_num)
    have h21 := toDigits_length_le (F n) 21 (by norm_num) hF
    rw [hval] at hs hr hlen
    exact ⟨_, _, _, hv, hr, hlen, hs, h21, by omega⟩
  · obtain ⟨hv, hval, hl, _, hu⟩ := fib_sequence_value 100 (by omega)
    obtain ⟨r, hr, _⟩ := fib_format_numeral _ hl hu
    have hs := strlen_append _ r
      (toDigits_ne_NUL ((rep (F 100)).dec_upper * 10 ^ 17 + (rep (F 100)).dec_lower))
    rw [hval] at hs hr
    have h21 : (Nat.toDigits 10 (F 100)).length = 21 := by rw [F_100]; decide
    rw [h21] at hs
    exact ⟨_, _, hv, hr, hs⟩

/-- Witness of C14: the value `3 * 10^17 + 5` and the index 100. -/
theorem ns_buffer_sufficient_witness :
    (cntdig 3 ≤ 20 ∧ cntdig 3 + 17 + 1 ≤ 40)
      ∧ (∃ v ns len, fib_sequence 100 = some v ∧ fib_format v = some ns ∧ ns.length = 40
          ∧ strlen ns = some len ∧ len ≤ 21 ∧ len + 1 ≤ 40) :=
  ⟨⟨(ns_buffer_sufficient.1 ⟨5, 3⟩ (by norm_num) (by norm_num)).1,
      (ns_buffer_sufficient.1 ⟨5, 3⟩ (by norm_num) (by norm_num)).2.1⟩,
    ns_buffer_sufficient.2.1 100 (by decide) (by decide)⟩


/-! ## The value returned by a successful read -/

set_option maxRecDepth 100000 in
/-- The values returned by the reads at positions 0, 10, 92 and 100, evaluated. -/
theorem fib_read_ret_values :
    (fib_read 0 0).map (fun r => r.ret) = some 1
      ∧ (fib_read 10 0).map (fun r => r.ret) = some 2
      ∧ (fib_read 92 0).map (fun r => r.ret) = some 19
      ∧ (fib_read 100 0).map (fun r => r.ret) = some 21 := by
  refine ⟨by decide, by decide, by decide, by decide⟩

/-- C19: on success `fib_read` returns the length of the decimal string, not
the Fibonacci value: for every cursor `k` in `[0, 100]` with a successful copy
the value returned is the number of decimal digits of `F(k)`, which is
`cntdig(low)` when `high == 0` and `cntdig(high) + 17` otherwise; the bytes
copied are one more, the last being the terminator.  The value is 1 at
`k = 0`, 2 at `k = 10`, 19 at `k = 92` and 21 at `k = 100`. -/
theorem fib_read_returns_length :
    (∀ k : Int, 0 ≤ k → k ≤ 100 →
        ∃ r v, fib_read k 0 = some r ∧ fib_sequence k = some v
          ∧ r.ret = ((Nat.toDigits 10 (F k.toNat)).length : Int)
          ∧ (v.dec_upper = 0 → r.ret = (cntdig v.dec_lower : Int))
          ∧ (v.dec_upper ≠ 0 → r.ret = (cntdig v.dec_upper : Int) + 17)
          ∧ (r.sent.length : Int) = r.ret + 1
          ∧ r.sent.getLast? = some NUL
          ∧ r.user = r.sent)
      ∧ (fib_read 0 0).map (fun r => r.ret) = some 1
      ∧ (fib_read 10 0).map (fun r => r.ret) = some 2
      ∧ (fib_read 92 0).map (fun r => r.ret) = some 19
      ∧ (fib_read 100 0).map (fun r => r.ret) = some 21 := by
  refine ⟨?_, fib_read_ret_values⟩
  intro k h0 h1
  obtain ⟨n, rfl⟩ : ∃ n : Nat, k = (n : Int) := ⟨k.toNat, by omega⟩
  obtain ⟨hv, hval, hl, _, hu⟩ := fib_sequence_value n (by omega)
  obtain ⟨r, hr, _⟩ := fib_format_numeral _ hl hu
  have hnl := numeral_length (rep (F n)) hl
  rw [hval] at hr hnl
  have hread := fib_read_of_format n _ _ r 0 hv hr (toDigits_ne_NUL _)
  simp only [Int.toNat_ofNat]
  refine ⟨_, _, hread, hv, ?_, ?_, ?_, ?_, ?_, ?_⟩
  · simp
  · intro hz
    rw [if_pos hz] at hnl
    simp [hnl]
  · intro hz
    rw [if_neg hz] at hnl
    simp [hnl]
  · simp
  · simp
  · simp only [Nat.sub_zero]
    rw [List.take_of_length_le (by simp)]

/-- Witness of C19: the read at position 100 returns 21. -/
theorem fib_read_returns_length_witness :
    ∃ r v, fib_read 100 0 = some r ∧ fib_sequence 100 = some v
      ∧ r.ret = ((Nat.toDigits 10 (F (100 : Int).toNat)).length : Int)
      ∧ (v.dec_upper = 0 → r.ret = (cntdig v.dec_lower : Int))
      ∧ (v.dec_upper ≠ 0 → r.ret = (cntdig v.dec_upper : Int) + 17)
      ∧ (r.sent.length : Int) = r.ret + 1
      ∧ r.sent.getLast? = some NUL
      ∧ r.user = r.sent :=
  fib_read_returns_length.1 100 (by decide) (by decide)

end Fibdrv
